import Mathlib

/-!
Verification of the `fol-synthesis` repository: a shallow embedding of the
first-order term/formula data model, the `NaturalProof` prover
(`synthesis/fol/prover.py`: prenex normalization, skolemization, bounded term
instantiation), the resource-escalation schedule of the FOSSIL driver
(`examples/fossil_variants.py`), and the solver-event trace of the CEGIS loop
(`examples/axiomatization.py`), together with theorems settling the spec's
claims about them.
-/

set_option maxHeartbeats 1000000

namespace FolSynthesis

/-- A first-order sort, with an optional smt hook (an interpreted sort has one,
an uninterpreted sort has `none`), mirroring `Sort` in the logic collaborator. -/
structure FOSort where
  name : String
  smt_hook : Option String
deriving DecidableEq

/-- A function symbol of the signature. -/
structure FunctionSymbol where
  input_sorts : List FOSort
  output_sort : FOSort
  name : String
deriving DecidableEq

/-- A relation symbol of the signature. -/
structure RelationSymbol where
  input_sorts : List FOSort
  name : String
deriving DecidableEq

/-- A sorted first-order variable. -/
structure Variable where
  name : String
  sort : FOSort
deriving DecidableEq

/-- First-order terms: a variable or a function application
(`Variable` / `Application` in the logic collaborator). -/
inductive Term where
  | var (v : Variable)
  | app (f : FunctionSymbol) (args : List Term)


mutual

/-- Decidable equality on terms (the nested `List` requires a manual instance). -/
def Term.decEq : (a b : Term) → Decidable (a = b)
  | .var v, .var w =>
      if h : v = w then .isTrue (by rw [h]) else .isFalse (by simp [h])
  | .var _, .app _ _ => .isFalse (by simp)
  | .app _ _, .var _ => .isFalse (by simp)
  | .app f as, .app g bs =>
      if hf : f = g then
        match Term.decEqList as bs with
        | .isTrue h => .isTrue (by rw [hf, h])
        | .isFalse h => .isFalse (by simp [hf, h])
      else .isFalse (by simp [hf])

/-- Decidable equality on lists of terms. -/
def Term.decEqList : (a b : List Term) → Decidable (a = b)
  | [], [] => .isTrue rfl
  | [], _ :: _ => .isFalse (by simp)
  | _ :: _, [] => .isFalse (by simp)
  | a :: as, b :: bs =>
      match Term.decEq a b, Term.decEqList as bs with
      | .isTrue h1, .isTrue h2 => .isTrue (by rw [h1, h2])
      | .isFalse h1, _ => .isFalse (by simp [h1])
      | _, .isFalse h2 => .isFalse (by simp [h2])

end

instance : DecidableEq Term := Term.decEq

/-- First-order formulas, one constructor per variant of the closed union in
the logic collaborator. -/
inductive Formula where
  | Falsum
  | Verum
  | RelationApplication (relation : RelationSymbol) (arguments : List Term)
  | Equality (left right : Term)
  | Conjunction (left right : Formula)
  | Disjunction (left right : Formula)
  | Negation (f : Formula)
  | Implication (left right : Formula)
  | Equivalence (left right : Formula)
  | UniversalQuantification (v : Variable) (body : Formula)
  | ExistentialQuantification (v : Variable) (body : Formula)
deriving DecidableEq



/-- Modelled from the spec: the sort of a term (sort lookup exposed by the
formula/term algebra, `synthesis/fol/base.py`, which is not under `src/`). -/
def Term.get_sort : Term → FOSort
  | .var v => v.sort
  | .app f _ => f.output_sort

mutual

/-- Modelled from the spec: free-variable extraction for terms, exposed by the
logic collaborator (`synthesis/fol/base.py`, not under `src/`).  Returned as a
list; only membership and emptiness are consumed by the core. -/
def Term.get_free_variables : Term → List Variable
  | .var v => [v]
  | .app _ args => Term.get_free_variables_list args

/-- Free variables of a list of terms, concatenated left to right. -/
def Term.get_free_variables_list : List Term → List Variable
  | [] => []
  | t :: ts => Term.get_free_variables t ++ Term.get_free_variables_list ts

end

/-- Modelled from the spec: free-variable extraction for formulas
(`synthesis/fol/base.py`, not under `src/`); quantification removes the bound
variable from the body's free variables. -/
def Formula.get_free_variables : Formula → List Variable
  | .Falsum => []
  | .Verum => []
  | .RelationApplication _ args => Term.get_free_variables_list args
  | .Equality l r => l.get_free_variables ++ r.get_free_variables
  | .Conjunction l r => l.get_free_variables ++ r.get_free_variables
  | .Disjunction l r => l.get_free_variables ++ r.get_free_variables
  | .Negation f => f.get_free_variables
  | .Implication l r => l.get_free_variables ++ r.get_free_variables
  | .Equivalence l r => l.get_free_variables ++ r.get_free_variables
  | .UniversalQuantification v body => body.get_free_variables.filter (fun w => w ≠ v)
  | .ExistentialQuantification v body => body.get_free_variables.filter (fun w => w ≠ v)

/-- A substitution is the variable-to-term mapping passed to `substitute`. -/
abbrev Substitution := List (Variable × Term)

/-- Lookup of a variable in a substitution (first binding wins, as in a dict
built by `dict(zip(...))` with distinct keys). -/
def Substitution.lookup (s : Substitution) (v : Variable) : Option Term :=
  ((List.find? (fun p => p.1 = v) s).map (fun p => p.2))

mutual

/-- Modelled from the spec: capture-naive simultaneous substitution on terms
(`synthesis/fol/base.py`, not under `src/`). -/
def Term.substitute (s : Substitution) : Term → Term
  | .var v => (Substitution.lookup s v).getD (.var v)
  | .app f args => .app f (Term.substituteList s args)

/-- Substitution mapped over a list of terms. -/
def Term.substituteList (s : Substitution) : List Term → List Term
  | [] => []
  | t :: ts => Term.substitute s t :: Term.substituteList s ts

end

/-- Modelled from the spec: substitution on formulas
(`synthesis/fol/base.py`, not under `src/`); a quantifier drops its bound
variable from the mapping before descending. -/
def Formula.substitute (s : Substitution) : Formula → Formula
  | .Falsum => .Falsum
  | .Verum => .Verum
  | .RelationApplication r args => .RelationApplication r (Term.substituteList s args)
  | .Equality l r => .Equality (l.substitute s) (r.substitute s)
  | .Conjunction l r => .Conjunction (l.substitute s) (r.substitute s)
  | .Disjunction l r => .Disjunction (l.substitute s) (r.substitute s)
  | .Negation f => .Negation (f.substitute s)
  | .Implication l r => .Implication (l.substitute s) (r.substitute s)
  | .Equivalence l r => .Equivalence (l.substitute s) (r.substitute s)
  | .UniversalQuantification v body =>
      .UniversalQuantification v (body.substitute (s.filter (fun p => p.1 ≠ v)))
  | .ExistentialQuantification v body =>
      .ExistentialQuantification v (body.substitute (s.filter (fun p => p.1 ≠ v)))

/-- Modelled from the spec: the quantifier-free test exposed by the logic
collaborator (`synthesis/fol/base.py`, not under `src/`): true exactly when no
quantifier occurs in the formula. -/
def Formula.is_qfree : Formula → Bool
  | .Falsum => true
  | .Verum => true
  | .RelationApplication _ _ => true
  | .Equality _ _ => true
  | .Conjunction l r => l.is_qfree && r.is_qfree
  | .Disjunction l r => l.is_qfree && r.is_qfree
  | .Negation f => f.is_qfree
  | .Implication l r => l.is_qfree && r.is_qfree
  | .Equivalence l r => l.is_qfree && r.is_qfree
  | .UniversalQuantification _ _ => false
  | .ExistentialQuantification _ _ => false

/-- Whether an `Equivalence` connective occurs anywhere in the formula. -/
def Formula.has_equivalence : Formula → Bool
  | .Falsum => false
  | .Verum => false
  | .RelationApplication _ _ => false
  | .Equality _ _ => false
  | .Conjunction l r => l.has_equivalence || r.has_equivalence
  | .Disjunction l r => l.has_equivalence || r.has_equivalence
  | .Negation f => f.has_equivalence
  | .Implication l r => l.has_equivalence || r.has_equivalence
  | .Equivalence _ _ => true
  | .UniversalQuantification _ body => body.has_equivalence
  | .ExistentialQuantification _ body => body.has_equivalence

mutual

/-- All variable names occurring in a term (with duplicates). -/
def Term.var_names : Term → List String
  | .var v => [v.name]
  | .app _ args => Term.var_names_list args

/-- All variable names occurring in a list of terms. -/
def Term.var_names_list : List Term → List String
  | [] => []
  | t :: ts => Term.var_names t ++ Term.var_names_list ts

end

/-- All variable names occurring anywhere in a formula: in terms and as bound
variables of quantifiers (with duplicates). -/
def Formula.var_names : Formula → List String
  | .Falsum => []
  | .Verum => []
  | .RelationApplication _ args => Term.var_names_list args
  | .Equality l r => l.var_names ++ r.var_names
  | .Conjunction l r => l.var_names ++ r.var_names
  | .Disjunction l r => l.var_names ++ r.var_names
  | .Negation f => f.var_names
  | .Implication l r => l.var_names ++ r.var_names
  | .Equivalence l r => l.var_names ++ r.var_names
  | .UniversalQuantification v body => v.name :: body.var_names
  | .ExistentialQuantification v body => v.name :: body.var_names

/-- The signature: sorts, function symbols and relation symbols
(`Language` in the logic collaborator). -/
structure Language where
  sorts : List FOSort
  function_symbols : List FunctionSymbol
  relation_symbols : List RelationSymbol
deriving DecidableEq

/-- The names of all function symbols in the language. -/
def Language.function_names (lang : Language) : List String :=
  lang.function_symbols.map (fun f => f.name)

/-- The greatest length of a function symbol name in the language. -/
def Language.max_function_name_length (lang : Language) : Nat :=
  (lang.function_symbols.map (fun f => f.name.length)).foldr max 0

/-- Modelled from the spec: `Language.get_fresh_function_name`
(`synthesis/fol/language.py`, not under `src/`): returns a name starting with
the given seed that is fresh for the language; the spec guarantees freshness by
the generated name's length strictly exceeding the length of every existing
name. -/
def Language.get_fresh_function_name (lang : Language) (seed : String) : String :=
  seed ++ String.mk (List.replicate (lang.max_function_name_length + 1) '0')

/-- Modelled from the spec: `Language.expand_with_function`
(`synthesis/fol/language.py`, not under `src/`): symbol extension returning a
new language value, not mutating in place. -/
def Language.expand_with_function (lang : Language) (f : FunctionSymbol) : Language :=
  { lang with function_symbols := lang.function_symbols ++ [f] }

/-- Append an element if not yet present: the insertion-ordered deduplication
discipline of a Python `OrderedDict` used as a set. -/
def insertNew {α : Type} [DecidableEq α] (xs : List α) (x : α) : List α :=
  if x ∈ xs then xs else xs ++ [x]

/-- Size measure for the termination of prenex normalization: the equivalence
case is weighted to dominate its rewrite into a conjunction of two
implications. -/
def Formula.psize : Formula → Nat
  | .Falsum => 1
  | .Verum => 1
  | .RelationApplication _ _ => 1
  | .Equality _ _ => 1
  | .Conjunction l r => l.psize + r.psize + 1
  | .Disjunction l r => l.psize + r.psize + 1
  | .Negation f => f.psize + 1
  | .Implication l r => l.psize + r.psize + 1
  | .Equivalence l r => 2 * l.psize + 2 * r.psize + 4
  | .UniversalQuantification _ body => body.psize + 1
  | .ExistentialQuantification _ body => body.psize + 1

namespace NaturalProof

/-- `QuantifierKind` from `synthesis/fol/prover.py`. -/
inductive QuantifierKind where
  | UNIVERSAL
  | EXISTENTIAL
deriving DecidableEq

/-- `QuantifierKind.dual`. -/
def QuantifierKind.dual : QuantifierKind → QuantifierKind
  | .UNIVERSAL => .EXISTENTIAL
  | .EXISTENTIAL => .UNIVERSAL

/-- `QuantifierList`: bound variable and quantifier kind pairs, outermost
first. -/
abbrev QuantifierList := List (Variable × QuantifierKind)

/-- `NaturalProof.get_all_terms`: all terms in a formula. -/
def get_all_terms : Formula → List Term
  | .Falsum => []
  | .Verum => []
  | .RelationApplication _ args => args
  | .Equality l r => [l, r]
  | .Conjunction l r => get_all_terms l ++ get_all_terms r
  | .Disjunction l r => get_all_terms l ++ get_all_terms r
  | .Implication l r => get_all_terms l ++ get_all_terms r
  | .Equivalence l r => get_all_terms l ++ get_all_terms r
  | .Negation f => get_all_terms f
  | .UniversalQuantification _ body => get_all_terms body
  | .ExistentialQuantification _ body => get_all_terms body

mutual

/-- `NaturalProof.get_all_ground_terms_in_term`: all ground terms of the given
sort in the given term, each application listed before the ground terms of its
arguments. -/
def get_all_ground_terms_in_term (sort : FOSort) : Term → List Term
  | .var _ => []
  | .app f args =>
      let subterms := get_all_ground_terms_in_term_list sort args
      if (Term.app f args).get_sort = sort ∧ (Term.app f args).get_free_variables.length = 0 then
        Term.app f args :: subterms
      else
        subterms

/-- Ground-term collection over a list of terms, concatenated left to right. -/
def get_all_ground_terms_in_term_list (sort : FOSort) : List Term → List Term
  | [] => []
  | t :: ts => get_all_ground_terms_in_term sort t ++ get_all_ground_terms_in_term_list sort ts

end

/-- `NaturalProof.get_all_ground_terms`: all ground terms of the given sort in
the given formula. -/
def get_all_ground_terms (sort : FOSort) (formula : Formula) : List Term :=
  get_all_ground_terms_in_term_list sort (get_all_terms formula)

/-- `NaturalProof.flip_quantifier_list`. -/
def flip_quantifier_list (quants : QuantifierList) : QuantifierList :=
  quants.map (fun vk => (vk.1, vk.2.dual))

mutual

/-- `NaturalProof.get_longest_variable_name` on a term; `dflt` is the `default`
parameter (recursive calls pass the Python default value "x"). -/
def get_longest_variable_name_term : Term → String → String
  | .var v, _ => v.name
  | .app _ args, dflt => get_longest_variable_name_args args dflt

/-- The argument loop of `get_longest_variable_name` on an application:
`acc` is the running `var_name`, updated when a strictly longer name is found. -/
def get_longest_variable_name_args : List Term → String → String
  | [], acc => acc
  | a :: rest, acc =>
      let name := get_longest_variable_name_term a "x"
      if name.length > acc.length then get_longest_variable_name_args rest name
      else get_longest_variable_name_args rest acc

end

/-- `NaturalProof.get_longest_variable_name` on a formula. -/
def get_longest_variable_name_formula : Formula → String → String
  | .Falsum, dflt => dflt
  | .Verum, dflt => dflt
  | .RelationApplication _ args, dflt => get_longest_variable_name_args args dflt
  | .Equality l r, _ =>
      let left_name := get_longest_variable_name_term l "x"
      let right_name := get_longest_variable_name_term r "x"
      if right_name.length > left_name.length then right_name else left_name
  | .Conjunction l r, _ =>
      let left_name := get_longest_variable_name_formula l "x"
      let right_name := get_longest_variable_name_formula r "x"
      if left_name.length ≥ right_name.length then left_name else right_name
  | .Disjunction l r, _ =>
      let left_name := get_longest_variable_name_formula l "x"
      let right_name := get_longest_variable_name_formula r "x"
      if left_name.length ≥ right_name.length then left_name else right_name
  | .Implication l r, _ =>
      let left_name := get_longest_variable_name_formula l "x"
      let right_name := get_longest_variable_name_formula r "x"
      if left_name.length ≥ right_name.length then left_name else right_name
  | .Equivalence l r, _ =>
      let left_name := get_longest_variable_name_formula l "x"
      let right_name := get_longest_variable_name_formula r "x"
      if left_name.length ≥ right_name.length then left_name else right_name
  | .Negation f, _ => get_longest_variable_name_formula f "x"
  | .UniversalQuantification v body, _ =>
      let body_name := get_longest_variable_name_formula body "x"
      if v.name.length ≥ body_name.length then v.name else body_name
  | .ExistentialQuantification v body, _ =>
      let body_name := get_longest_variable_name_formula body "x"
      if v.name.length ≥ body_name.length then v.name else body_name

/-- `get_longest_variable_name` with the Python default "x". -/
def get_longest_variable_name (f : Formula) : String :=
  get_longest_variable_name_formula f "x"

/-- `NaturalProof.prenex_normalize` with explicit running index and name seed
(`var_index` and `var_prefix` of the Python function). -/
def prenex_normalize_from (formula : Formula) (var_index : Nat) (vpre : String) :
    QuantifierList × Formula :=
  match formula with
  | .Falsum => ([], .Falsum)
  | .Verum => ([], .Verum)
  | .RelationApplication r args => ([], .RelationApplication r args)
  | .Equality l r => ([], .Equality l r)
  | .Conjunction l r =>
      let lp := prenex_normalize_from l var_index vpre
      let rp := prenex_normalize_from r (var_index + lp.1.length) vpre
      (lp.1 ++ rp.1, .Conjunction lp.2 rp.2)
  | .Disjunction l r =>
      let lp := prenex_normalize_from l var_index vpre
      let rp := prenex_normalize_from r (var_index + lp.1.length) vpre
      (lp.1 ++ rp.1, .Disjunction lp.2 rp.2)
  | .Negation f =>
      let p := prenex_normalize_from f var_index vpre
      (flip_quantifier_list p.1, .Negation p.2)
  | .Implication l r =>
      let lp := prenex_normalize_from l var_index vpre
      let rp := prenex_normalize_from r (var_index + lp.1.length) vpre
      (flip_quantifier_list lp.1 ++ rp.1, .Implication lp.2 rp.2)
  | .Equivalence l r =>
      prenex_normalize_from
        (.Conjunction (.Implication l r) (.Implication r l)) var_index vpre
  | .UniversalQuantification v body =>
      let bp := prenex_normalize_from body (var_index + 1) vpre
      let renamed_var : Variable := ⟨vpre ++ toString var_index, v.sort⟩
      ((renamed_var, QuantifierKind.UNIVERSAL) :: bp.1,
       bp.2.substitute [(v, .var renamed_var)])
  | .ExistentialQuantification v body =>
      let bp := prenex_normalize_from body (var_index + 1) vpre
      let renamed_var : Variable := ⟨vpre ++ toString var_index, v.sort⟩
      ((renamed_var, QuantifierKind.EXISTENTIAL) :: bp.1,
       bp.2.substitute [(v, .var renamed_var)])
termination_by formula.psize
decreasing_by all_goals simp [Formula.psize] <;> omega

/-- `NaturalProof.prenex_normalize` with the Python defaults: index 0 and the
longest variable name of the input as the renaming seed. -/
def prenex_normalize (formula : Formula) : QuantifierList × Formula :=
  prenex_normalize_from formula 0 (get_longest_variable_name formula)

/-- One step of the quantifier-list walk of `NaturalProof.skolemize`: the
accumulator carries the universal variables collected so far, the working
language, and the working body. -/
def skolemize_step (acc : List Variable × Language × Formula)
    (vk : Variable × QuantifierKind) : List Variable × Language × Formula :=
  match vk.2 with
  | .UNIVERSAL => (acc.1 ++ [vk.1], acc.2.1, acc.2.2)
  | .EXISTENTIAL =>
      let fresh_function_name := acc.2.1.get_fresh_function_name "sk"
      let skolem_function_symbol : FunctionSymbol :=
        ⟨acc.1.map (fun u => u.sort), vk.1.sort, fresh_function_name⟩
      (acc.1,
       acc.2.1.expand_with_function skolem_function_symbol,
       acc.2.2.substitute [(vk.1, Term.app skolem_function_symbol (acc.1.map Term.var))])

/-- `NaturalProof.skolemize`: prenex-normalize, then walk the quantifier list
left to right replacing each existential variable by a fresh function applied
to the accumulated universal variables. -/
def skolemize (language : Language) (formula : Formula) : Language × Formula :=
  let qp := prenex_normalize formula
  let st := qp.1.foldl skolemize_step ([], language, qp.2)
  (st.2.1, st.2.2)

/-- The state threaded through `NaturalProof.term_instantiate`: the
insertion-ordered ground-term set, the insertion-ordered set of already
instantiated formulas, the sequence of formulas yielded so far, and the
`has_new_formula` flag of the current round. -/
structure TIState where
  ground_terms : List Term
  instantiated_formulas : List Formula
  emitted : List Formula
  has_new_formula : Bool
deriving DecidableEq

/-- Modelled from the spec: Python `sorted` over the free-variable set, using
the ordering on `Variable` of the logic collaborator (not under `src/`),
here insertion sort by variable name. -/
def insert_variable_sorted (v : Variable) : List Variable → List Variable
  | [] => [v]
  | w :: ws => if v.name ≤ w.name then v :: w :: ws else w :: insert_variable_sorted v ws

/-- Insertion sort of variables by name. -/
def sort_variables : List Variable → List Variable
  | [] => []
  | v :: vs => insert_variable_sorted v (sort_variables vs)

/-- `itertools.product(l, repeat = n)`: all length-`n` tuples over `l`, the
first coordinate varying slowest. -/
def tuple_product {α : Type} (l : List α) : Nat → List (List α)
  | 0 => [[]]
  | n + 1 => l.flatMap (fun a => (tuple_product l n).map (fun rest => a :: rest))

/-- The sorted foreground-sort free variables of a formula
(`sorted(tuple(var for var in formula.get_free_variables() if var.sort ==
foreground_sort))` in `term_instantiate`). -/
def foreground_free_vars (foreground_sort : FOSort) (formula : Formula) : List Variable :=
  sort_variables ((formula.get_free_variables.filter
    (fun v => v.sort = foreground_sort)).dedup)

/-- The body of the assignment loop of `term_instantiate`: substitute one
assignment into the formula, emit it if new, and record every ground term of
the instantiated formula. -/
def process_assignment (foreground_sort : FOSort) (formula : Formula)
    (free_vars : List Variable) (st : TIState) (assignment : List Term) : TIState :=
  let substitution : Substitution := free_vars.zip assignment
  let instantiated_formula := formula.substitute substitution
  let st1 :=
    if instantiated_formula ∈ st.instantiated_formulas then st
    else { st with
            instantiated_formulas := st.instantiated_formulas ++ [instantiated_formula],
            emitted := st.emitted ++ [instantiated_formula],
            has_new_formula := true }
  { st1 with
      ground_terms :=
        (get_all_ground_terms foreground_sort instantiated_formula).foldl
          insertNew st1.ground_terms }

/-- The per-formula loop of `term_instantiate`: enumerate every assignment of
the formula's foreground free variables over a snapshot of the ground-term
set. -/
def process_formula (foreground_sort : FOSort) (st : TIState) (formula : Formula) : TIState :=
  let free_vars := foreground_free_vars foreground_sort formula
  let ordered_ground_terms := st.ground_terms
  (tuple_product ordered_ground_terms free_vars.length).foldl
    (process_assignment foreground_sort formula free_vars) st

/-- One round of `term_instantiate`: process every input formula once. -/
def process_round (foreground_sort : FOSort) (formulas : List Formula) (st : TIState) : TIState :=
  formulas.foldl (process_formula foreground_sort) st

/-- The round loop of `term_instantiate`: at most `fuel` rounds, breaking early
when a round produced no new formula. -/
def run_rounds (foreground_sort : FOSort) (formulas : List Formula) :
    Nat → TIState → TIState
  | 0, st => st
  | fuel + 1, st =>
      let st1 := process_round foreground_sort formulas { st with has_new_formula := false }
      if st1.has_new_formula then run_rounds foreground_sort formulas fuel st1 else st1

/-- The round loop with the early fixpoint break removed: always runs all
rounds (the variant the spec declares observationally equivalent). -/
def run_rounds_no_break (foreground_sort : FOSort) (formulas : List Formula) :
    Nat → TIState → TIState
  | 0, st => st
  | fuel + 1, st =>
      run_rounds_no_break foreground_sort formulas fuel
        (process_round foreground_sort formulas { st with has_new_formula := false })

/-- The seed ground terms found in the language: one application for every
nullary function symbol of the foreground sort, in declaration order. -/
def seed_from_language (language : Language) (foreground_sort : FOSort) : List Term :=
  language.function_symbols.foldl
    (fun acc f =>
      if f.output_sort = foreground_sort ∧ f.input_sorts = [] then
        insertNew acc (Term.app f [])
      else acc)
    []

/-- The seed ground-term set of `term_instantiate`: nullary symbols of the
foreground sort; if there are none, every ground subterm of that sort in the
input formulas. -/
def seed_ground_terms (language : Language) (foreground_sort : FOSort)
    (formulas : List Formula) : List Term :=
  let g := seed_from_language language foreground_sort
  if g = [] then
    formulas.foldl
      (fun acc formula => (get_all_ground_terms foreground_sort formula).foldl insertNew acc)
      []
  else g

/-- The state `term_instantiate` starts its rounds from. -/
def initial_state (language : Language) (foreground_sort : FOSort)
    (formulas : List Formula) : TIState :=
  ⟨seed_ground_terms language foreground_sort formulas, [], [], false⟩

/-- `NaturalProof.term_instantiate`.  A fatal assertion of the Python generator
is modelled as an error value; on success the result is the full sequence of
yielded formulas, in order. -/
def term_instantiate (language : Language) (foreground_sort : FOSort)
    (formulas : List Formula) (depth : Int) : Except String (List Formula) :=
  if foreground_sort.smt_hook ≠ none then
    .error "the foreground sort must not be interpreted"
  else
    let ground_terms := seed_ground_terms language foreground_sort formulas
    if ground_terms = [] then
      .error "the given language does not have a ground term of the foreground sort"
    else if depth < 0 then
      .error "invalid depth"
    else
      .ok (run_rounds foreground_sort formulas depth.toNat
            (initial_state language foreground_sort formulas)).emitted

/-- `term_instantiate` with the early fixpoint break removed. -/
def term_instantiate_no_break (language : Language) (foreground_sort : FOSort)
    (formulas : List Formula) (depth : Int) : Except String (List Formula) :=
  if foreground_sort.smt_hook ≠ none then
    .error "the foreground sort must not be interpreted"
  else
    let ground_terms := seed_ground_terms language foreground_sort formulas
    if ground_terms = [] then
      .error "the given language does not have a ground term of the foreground sort"
    else if depth < 0 then
      .error "invalid depth"
    else
      .ok (run_rounds_no_break foreground_sort formulas depth.toNat
            (initial_state language foreground_sort formulas)).emitted

end NaturalProof

namespace FossilVariants

/-- `prove` in `examples/fossil_variants.py`: the proof-search depth used at
iteration `i` of the escalation loop. -/
def natural_proof_depth (init i : Nat) : Nat := init + i / 2

/-- The lemma term depth used at iteration `i`. -/
def lemma_term_depth (init i : Nat) : Nat := init + i / 2

/-- The lemma formula depth used at iteration `i`. -/
def lemma_formula_depth (init i : Nat) : Nat := init + i

/-- The counterexample-structure size bound used at iteration `i` (the code
computes `init + i / 2`). -/
def true_counterexample_size_bound (init i : Nat) : Nat := init + i / 2

/-- The counterexample-structure size bound as documented by the comment above
the loop (`true_counterexample_size_bound = <init> + i // 3`). -/
def documented_true_counterexample_size_bound (init i : Nat) : Nat := init + i / 3

end FossilVariants

namespace Axiomatization

/-- The two decision-procedure sessions of the CEGIS loop in
`examples/axiomatization.py`: `solver1` is the synthesizer, `solver2` the
verifier. -/
inductive SolverTag where
  | synthesizer
  | verifier
deriving DecidableEq

/-- One solver interaction: a scope push or pop, adding an assertion with
payload `α`, or a satisfiability check. -/
inductive SolverAction (α : Type) where
  | push
  | pop
  | add_assertion (a : α)
  | solve
deriving DecidableEq

/-- The solver events of one iteration of the CEGIS loop body
(`examples/axiomatization.py`, the `while solver1.solve()` body), in program
order: verifier push, assert the candidate refutation, verifier solve; if a
counterexample is found the synthesizer learns the counterexample constraint,
otherwise the synthesizer learns the accepted-candidate constraint; finally the
verifier pop. -/
def cegis_iteration {α : Type} (refute_candidate cex_constraint accept_constraint : α)
    (counterexample_found : Bool) : List (SolverTag × SolverAction α) :=
  [(.verifier, .push),
   (.verifier, .add_assertion refute_candidate),
   (.verifier, .solve)] ++
  (if counterexample_found then [(.synthesizer, .add_assertion cex_constraint)]
   else [(.synthesizer, .add_assertion accept_constraint)]) ++
  [(.verifier, .pop)]

/-- The concatenated trace of a run of the loop, one iteration per recorded
counterexample outcome. -/
def cegis_trace {α : Type} (refute_candidate cex_constraint accept_constraint : α) :
    List Bool → List (SolverTag × SolverAction α)
  | [] => []
  | b :: bs =>
      cegis_iteration refute_candidate cex_constraint accept_constraint b ++
        cegis_trace refute_candidate cex_constraint accept_constraint bs

/-- The verifier context as a stack of assertion scopes, innermost scope
first; the base scope holds assertions added outside any push. -/
def applyVerifierAction {α : Type} (stack : List (List α)) :
    SolverAction α → List (List α)
  | .push => [] :: stack
  | .pop => stack.tail
  | .add_assertion a =>
      match stack with
      | [] => [[a]]
      | top :: rest => (top ++ [a]) :: rest
  | .solve => stack

/-- Run a tagged event trace against the verifier context, ignoring
synthesizer events. -/
def runVerifier {α : Type} (stack : List (List α))
    (events : List (SolverTag × SolverAction α)) : List (List α) :=
  events.foldl
    (fun s e => if e.1 = SolverTag.verifier then applyVerifierAction s e.2 else s) stack

end Axiomatization


/-! Helper lemmas for the CEGIS trace. -/

/-- Running a concatenated trace is running the pieces in order. -/
theorem Axiomatization.runVerifier_append {α : Type} [DecidableEq α]
    (stack : List (List α)) (e1 e2 : List (Axiomatization.SolverTag × Axiomatization.SolverAction α)) :
    Axiomatization.runVerifier stack (e1 ++ e2) =
      Axiomatization.runVerifier (Axiomatization.runVerifier stack e1) e2 := by
  simp [Axiomatization.runVerifier, List.foldl_append]

/-- One CEGIS iteration leaves the verifier context exactly as it found it. -/
theorem Axiomatization.cegis_iteration_runVerifier_id {α : Type} [DecidableEq α]
    (refute_candidate cex_constraint accept_constraint : α) (found : Bool)
    (stack : List (List α)) :
    Axiomatization.runVerifier stack
      (Axiomatization.cegis_iteration refute_candidate cex_constraint accept_constraint found) =
      stack := by
  cases found <;> rfl

/-- C9: in the CEGIS loop of `examples/axiomatization.py`, each iteration
performs exactly one verifier push and one verifier pop, its only verifier
assertion (the candidate refutation) sits strictly between them, and on both
the counterexample-found and the candidate-accepted branch the verifier
context is restored exactly; consequently a whole run of the loop leaks no
per-candidate constraint into later iterations. -/
theorem C9_cegis_verifier_scope_discipline {α : Type} [DecidableEq α]
    (refute_candidate cex_constraint accept_constraint : α) (found : Bool)
    (stack : List (List α)) (outcomes : List Bool) :
    ((Axiomatization.cegis_iteration refute_candidate cex_constraint accept_constraint
        found).filter (fun e => e.1 = Axiomatization.SolverTag.verifier)).map
        (fun e => e.2) =
      [.push, .add_assertion refute_candidate, .solve, .pop] ∧
    ((Axiomatization.cegis_iteration refute_candidate cex_constraint accept_constraint
        found).filter (fun e =>
          e.1 = Axiomatization.SolverTag.verifier ∧
            e.2 = Axiomatization.SolverAction.push)).length = 1 ∧
    ((Axiomatization.cegis_iteration refute_candidate cex_constraint accept_constraint
        found).filter (fun e =>
          e.1 = Axiomatization.SolverTag.verifier ∧
            e.2 = Axiomatization.SolverAction.pop)).length = 1 ∧
    Axiomatization.runVerifier stack
      (Axiomatization.cegis_iteration refute_candidate cex_constraint accept_constraint
        found) = stack ∧
    Axiomatization.runVerifier stack
      (Axiomatization.cegis_trace refute_candidate cex_constraint accept_constraint
        outcomes) = stack := by
  refine ⟨?_, ?_, ?_, ?_, ?_⟩
  · cases found <;> rfl
  · cases found <;> rfl
  · cases found <;> rfl
  · exact Axiomatization.cegis_iteration_runVerifier_id _ _ _ _ _
  · induction outcomes generalizing stack with
    | nil => rfl
    | cons b bs ih =>
        rw [Axiomatization.cegis_trace, Axiomatization.runVerifier_append,
          Axiomatization.cegis_iteration_runVerifier_id]
        exact ih stack

/-- C1: the escalation loop of `prove` in `examples/fossil_variants.py` is
documented (in the comment directly above it) to grow the
counterexample-structure size bound as `init + i // 3`, but the code computes
`init + i // 2`; at iteration 2 with the default init 4 the code yields 5
where the documented schedule yields 4.  The other three bounds are evaluated
at the same iteration for comparison. -/
theorem C1_escalation_schedule_divergence :
    FossilVariants.natural_proof_depth 1 2 = 1 + 2 / 2 ∧
    FossilVariants.lemma_term_depth 0 2 = 0 + 2 / 2 ∧
    FossilVariants.lemma_formula_depth 0 2 = 0 + 2 ∧
    FossilVariants.true_counterexample_size_bound 4 2 = 5 ∧
    FossilVariants.documented_true_counterexample_size_bound 4 2 = 4 ∧
    FossilVariants.true_counterexample_size_bound 4 2 ≠
      FossilVariants.documented_true_counterexample_size_bound 4 2 := by
  decide

/-- C8: `term_instantiate` fails with a fatal assertion (before emitting any
formula) exactly when the foreground sort has an smt hook, or the seed
ground-term set is empty, or the requested depth is negative. -/
theorem C8_precondition_assertions (language : Language) (foreground_sort : FOSort)
    (formulas : List Formula) (depth : Int) :
    (∃ msg, NaturalProof.term_instantiate language foreground_sort formulas depth =
        Except.error msg) ↔
      (foreground_sort.smt_hook ≠ none ∨
        NaturalProof.seed_ground_terms language foreground_sort formulas = [] ∨
        depth < 0) := by
  by_cases h1 : foreground_sort.smt_hook = none
  · by_cases h2 : NaturalProof.seed_ground_terms language foreground_sort formulas = []
    · simp [NaturalProof.term_instantiate, h1, h2]
    · by_cases h3 : depth < 0
      · simp [NaturalProof.term_instantiate, h1, h2, h3]
      · simp [NaturalProof.term_instantiate, h1, h2, h3]
  · simp [NaturalProof.term_instantiate, h1]


/-- A quantifier-free, equivalence-free formula prenex-normalizes to itself
with an empty quantifier list, for every index and name seed. -/
theorem prenex_normalize_from_qfree (F : Formula) :
    ∀ (i : Nat) (p : String), F.is_qfree = true → F.has_equivalence = false →
      NaturalProof.prenex_normalize_from F i p = ([], F) := by
  induction F with
  | Falsum => intro i p _ _; rw [NaturalProof.prenex_normalize_from]
  | Verum => intro i p _ _; rw [NaturalProof.prenex_normalize_from]
  | RelationApplication r args => intro i p _ _; rw [NaturalProof.prenex_normalize_from]
  | Equality l r => intro i p _ _; rw [NaturalProof.prenex_normalize_from]
  | Conjunction l r ihl ihr =>
      intro i p hq hni
      simp only [Formula.is_qfree, Bool.and_eq_true] at hq
      simp only [Formula.has_equivalence, Bool.or_eq_false_iff] at hni
      rw [NaturalProof.prenex_normalize_from]
      simp [ihl _ p hq.1 hni.1, ihr _ p hq.2 hni.2]
  | Disjunction l r ihl ihr =>
      intro i p hq hni
      simp only [Formula.is_qfree, Bool.and_eq_true] at hq
      simp only [Formula.has_equivalence, Bool.or_eq_false_iff] at hni
      rw [NaturalProof.prenex_normalize_from]
      simp [ihl _ p hq.1 hni.1, ihr _ p hq.2 hni.2]
  | Negation f ih =>
      intro i p hq hni
      simp only [Formula.is_qfree] at hq
      simp only [Formula.has_equivalence] at hni
      rw [NaturalProof.prenex_normalize_from]
      simp [ih _ p hq hni, NaturalProof.flip_quantifier_list]
  | Implication l r ihl ihr =>
      intro i p hq hni
      simp only [Formula.is_qfree, Bool.and_eq_true] at hq
      simp only [Formula.has_equivalence, Bool.or_eq_false_iff] at hni
      rw [NaturalProof.prenex_normalize_from]
      simp [ihl _ p hq.1 hni.1, ihr _ p hq.2 hni.2, NaturalProof.flip_quantifier_list]
  | Equivalence l r ihl ihr =>
      intro i p hq hni
      simp [Formula.has_equivalence] at hni
  | UniversalQuantification v body ih =>
      intro i p hq hni
      simp [Formula.is_qfree] at hq
  | ExistentialQuantification v body ih =>
      intro i p hq hni
      simp [Formula.is_qfree] at hq

/-- C4 (amended): `prenex_normalize` on a conjunction of two quantifier-free
formulas that contain no `Equivalence` connective returns the empty quantifier
list and the formula unchanged.  (With an equivalence inside, the quantifier
list is still empty but the equivalence is rewritten into the conjunction of
its two directional implications, so the formula is not returned unchanged.) -/
theorem C4_conjunction_of_qfree_unchanged (A B : Formula)
    (hA : A.is_qfree = true) (hB : B.is_qfree = true)
    (hA2 : A.has_equivalence = false) (hB2 : B.has_equivalence = false) :
    NaturalProof.prenex_normalize (Formula.Conjunction A B) =
      ([], Formula.Conjunction A B) := by
  rw [NaturalProof.prenex_normalize]
  exact prenex_normalize_from_qfree _ _ _
    (by simp [Formula.is_qfree, hA, hB])
    (by simp [Formula.has_equivalence, hA2, hB2])

/-- C4 counterexample: the claim as stated fails on the code — both conjuncts
of this conjunction are quantifier-free, yet `prenex_normalize` rewrites the
inner equivalence into its two directional implications, so the formula is not
returned unchanged (the quantifier list is still empty). -/
theorem C4_counterexample :
    (Formula.Equivalence Formula.Verum Formula.Verum).is_qfree = true ∧
    (Formula.Verum).is_qfree = true ∧
    NaturalProof.prenex_normalize
        (Formula.Conjunction (Formula.Equivalence Formula.Verum Formula.Verum)
          Formula.Verum) ≠
      ([], Formula.Conjunction (Formula.Equivalence Formula.Verum Formula.Verum)
        Formula.Verum) := by
  refine ⟨rfl, rfl, ?_⟩
  simp [NaturalProof.prenex_normalize, NaturalProof.prenex_normalize_from,
    NaturalProof.get_longest_variable_name, NaturalProof.get_longest_variable_name_formula]

/-- C4 witness: the amended theorem applied to a concrete quantifier-free,
equivalence-free conjunction. -/
theorem C4_witness :
    Formula.Falsum.is_qfree = true ∧ Formula.Verum.is_qfree = true ∧
    Formula.Falsum.has_equivalence = false ∧ Formula.Verum.has_equivalence = false ∧
    NaturalProof.prenex_normalize (Formula.Conjunction Formula.Falsum Formula.Verum) =
      ([], Formula.Conjunction Formula.Falsum Formula.Verum) :=
  ⟨rfl, rfl, rfl, rfl, C4_conjunction_of_qfree_unchanged _ _ rfl rfl rfl rfl⟩

/-- The fold of `max` over a list is monotone in the base value. -/
theorem foldr_max_mono {l : List Nat} {a b : Nat} (h : a ≤ b) :
    l.foldr max a ≤ l.foldr max b := by
  induction l with
  | nil => exact h
  | cons x xs ih => exact max_le_max (Nat.le_refl x) ih

/-- Every member of a list is bounded by the fold of `max` over it. -/
theorem le_foldr_max {l : List Nat} {a : Nat} (h : a ∈ l) : a ≤ l.foldr max 0 := by
  induction l with
  | nil => cases h
  | cons x xs ih =>
      rcases List.mem_cons.1 h with h | h
      · subst h; exact Nat.le_max_left _ _
      · exact Nat.le_trans (ih h) (Nat.le_max_right _ _)

/-- The name of every function symbol of a language is bounded by the
language's greatest function name length. -/
theorem name_length_le_max {L : Language} {g : FunctionSymbol}
    (h : g ∈ L.function_symbols) :
    g.name.length ≤ L.max_function_name_length :=
  le_foldr_max (List.mem_map.2 ⟨g, h, rfl⟩)

/-- A fresh function name is strictly longer than every existing function
name bound. -/
theorem fresh_name_long (L : Language) (seed : String) :
    L.max_function_name_length < (L.get_fresh_function_name seed).length := by
  show L.max_function_name_length < (seed ++ String.mk
    (List.replicate (L.max_function_name_length + 1) '0')).length
  rw [String.length_append]
  have hmk : (String.mk (List.replicate (L.max_function_name_length + 1) '0')).length =
      L.max_function_name_length + 1 := by
    show (List.replicate (L.max_function_name_length + 1) '0').length = _
    simp
  omega

/-- Extending a language never decreases the greatest function name length. -/
theorem max_le_expand (L : Language) (f : FunctionSymbol) :
    L.max_function_name_length ≤
      (L.expand_with_function f).max_function_name_length := by
  show (List.map _ L.function_symbols).foldr max 0 ≤
    (List.map _ (L.function_symbols ++ [f])).foldr max 0
  rw [List.map_append, List.foldr_append]
  exact foldr_max_mono (by simp)

/-- Substitution never changes the quantifier structure of a formula:
quantifier-freeness is preserved both ways. -/
theorem substitute_is_qfree (F : Formula) :
    ∀ s : Substitution, (F.substitute s).is_qfree = F.is_qfree := by
  induction F with
  | Falsum => intro s; rfl
  | Verum => intro s; rfl
  | RelationApplication r args => intro s; rfl
  | Equality l r => intro s; rfl
  | Conjunction l r ihl ihr => intro s; simp [Formula.substitute, Formula.is_qfree, ihl, ihr]
  | Disjunction l r ihl ihr => intro s; simp [Formula.substitute, Formula.is_qfree, ihl, ihr]
  | Negation f ih => intro s; simp [Formula.substitute, Formula.is_qfree, ih]
  | Implication l r ihl ihr => intro s; simp [Formula.substitute, Formula.is_qfree, ihl, ihr]
  | Equivalence l r ihl ihr => intro s; simp [Formula.substitute, Formula.is_qfree, ihl, ihr]
  | UniversalQuantification v body ih => intro s; rfl
  | ExistentialQuantification v body ih => intro s; rfl

/-- The formula returned by `prenex_normalize_from` is quantifier-free. -/
theorem prenex_normalize_from_body_qfree (F : Formula) (i : Nat) (p : String) :
    ((NaturalProof.prenex_normalize_from F i p).2).is_qfree = true := by
  induction F, i, p using NaturalProof.prenex_normalize_from.induct with
  | case1 i p => rw [NaturalProof.prenex_normalize_from]; rfl
  | case2 i p => rw [NaturalProof.prenex_normalize_from]; rfl
  | case3 i p rel args => rw [NaturalProof.prenex_normalize_from]; rfl
  | case4 i p l r => rw [NaturalProof.prenex_normalize_from]; rfl
  | case5 i p l r lp ihl ihr =>
      rw [NaturalProof.prenex_normalize_from]
      simpa [Formula.is_qfree] using And.intro ihl ihr
  | case6 i p l r lp ihl ihr =>
      rw [NaturalProof.prenex_normalize_from]
      simpa [Formula.is_qfree] using And.intro ihl ihr
  | case7 i p f ih =>
      rw [NaturalProof.prenex_normalize_from]
      simpa [Formula.is_qfree] using ih
  | case8 i p l r lp ihl ihr =>
      rw [NaturalProof.prenex_normalize_from]
      simpa [Formula.is_qfree] using And.intro ihl ihr
  | case9 i p l r ih =>
      rw [NaturalProof.prenex_normalize_from]
      exact ih
  | case10 i p v body ih =>
      rw [NaturalProof.prenex_normalize_from]
      simpa [substitute_is_qfree] using ih
  | case11 i p v body ih =>
      rw [NaturalProof.prenex_normalize_from]
      simpa [substitute_is_qfree] using ih

/-- The expected argument-sort lists of the skolem functions introduced while
walking a quantifier list with the given already-accumulated universal sorts:
one entry per existential quantifier, holding the sorts of all universal
variables accumulated up to it. -/
def skolem_input_sorts : NaturalProof.QuantifierList → List FOSort → List (List FOSort)
  | [], _ => []
  | (v, .UNIVERSAL) :: rest, acc => skolem_input_sorts rest (acc ++ [v.sort])
  | (_, .EXISTENTIAL) :: rest, acc => acc :: skolem_input_sorts rest acc

/-- The quantifier-list walk of `skolemize` appends exactly one function
symbol per existential quantifier, whose input sorts are the accumulated
universal sorts and whose output sort is the existential variable's sort; all
appended names are longer than the base language's longest function name; and
the body's quantifier-freeness is preserved. -/
theorem skolemize_fold_spec (quants : NaturalProof.QuantifierList) :
    ∀ (us : List Variable) (L : Language) (F : Formula),
      ∃ news : List FunctionSymbol,
        (quants.foldl NaturalProof.skolemize_step (us, L, F)).2.1.function_symbols =
          L.function_symbols ++ news ∧
        news.map (fun g => g.input_sorts) =
          skolem_input_sorts quants (us.map (fun v => v.sort)) ∧
        news.map (fun g => g.output_sort) =
          (quants.filter
            (fun vk => vk.2 = NaturalProof.QuantifierKind.EXISTENTIAL)).map
            (fun vk => vk.1.sort) ∧
        (∀ g ∈ news, L.max_function_name_length < g.name.length) ∧
        (quants.foldl NaturalProof.skolemize_step (us, L, F)).2.2.is_qfree =
          F.is_qfree := by
  induction quants with
  | nil =>
      intro us L F
      exact ⟨[], by simp, by simp [skolem_input_sorts], by simp, by simp, rfl⟩
  | cons vk rest ih =>
      intro us L F
      obtain ⟨v, k⟩ := vk
      cases k with
      | UNIVERSAL =>
          have hstep : NaturalProof.skolemize_step (us, L, F)
              (v, NaturalProof.QuantifierKind.UNIVERSAL) = (us ++ [v], L, F) := rfl
          simp only [List.foldl_cons, hstep]
          obtain ⟨news, h1, h2, h3, h4, h5⟩ := ih (us ++ [v]) L F
          refine ⟨news, h1, ?_, ?_, h4, h5⟩
          · simp only [skolem_input_sorts]
            simpa [List.map_append] using h2
          · simpa using h3
      | EXISTENTIAL =>
          have hstep : NaturalProof.skolemize_step (us, L, F)
              (v, NaturalProof.QuantifierKind.EXISTENTIAL) =
              (us,
               L.expand_with_function
                 ⟨us.map (fun u => u.sort), v.sort, L.get_fresh_function_name "sk"⟩,
               F.substitute
                 [(v, Term.app
                     ⟨us.map (fun u => u.sort), v.sort, L.get_fresh_function_name "sk"⟩
                     (us.map Term.var))]) := rfl
          simp only [List.foldl_cons, hstep]
          obtain ⟨news, h1, h2, h3, h4, h5⟩ :=
            ih us
              (L.expand_with_function
                ⟨us.map (fun u => u.sort), v.sort, L.get_fresh_function_name "sk"⟩)
              (F.substitute
                [(v, Term.app
                    ⟨us.map (fun u => u.sort), v.sort, L.get_fresh_function_name "sk"⟩
                    (us.map Term.var))])
          refine ⟨⟨us.map (fun u => u.sort), v.sort, L.get_fresh_function_name "sk"⟩ ::
            news, ?_, ?_, ?_, ?_, ?_⟩
          · rw [h1]
            simp [Language.expand_with_function]
          · simp only [skolem_input_sorts, List.map_cons]
            rw [h2]
          · simpa using h3
          · intro g hg
            rcases List.mem_cons.1 hg with h | h
            · subst h; exact fresh_name_long L "sk"
            · exact Nat.lt_of_le_of_lt (max_le_expand L _) (h4 g h)
          · rw [h5, substitute_is_qfree]

/-- C2: `skolemize` first prenex-normalizes; the returned formula is
quantifier-free; the returned language extends the input language with exactly
one function symbol per existential quantifier of the prenex quantifier list,
in order, whose argument sorts are exactly those of all universal variables
accumulated before that existential (full Skolemization) and whose output sort
is the existential variable's sort; and every added symbol's name is fresh for
the input language. -/
theorem C2_skolemize_full (L : Language) (F : Formula) :
    (NaturalProof.skolemize L F).2.is_qfree = true ∧
    L.function_symbols <+: (NaturalProof.skolemize L F).1.function_symbols ∧
    (NaturalProof.skolemize L F).1.function_symbols.length =
      L.function_symbols.length +
        ((NaturalProof.prenex_normalize F).1.filter
          (fun vk => vk.2 = NaturalProof.QuantifierKind.EXISTENTIAL)).length ∧
    ((NaturalProof.skolemize L F).1.function_symbols.drop
        L.function_symbols.length).map (fun g => g.input_sorts) =
      skolem_input_sorts (NaturalProof.prenex_normalize F).1 [] ∧
    ((NaturalProof.skolemize L F).1.function_symbols.drop
        L.function_symbols.length).map (fun g => g.output_sort) =
      ((NaturalProof.prenex_normalize F).1.filter
        (fun vk => vk.2 = NaturalProof.QuantifierKind.EXISTENTIAL)).map
        (fun vk => vk.1.sort) ∧
    ∀ g ∈ (NaturalProof.skolemize L F).1.function_symbols,
      g ∈ L.function_symbols ∨ ¬ g.name ∈ L.function_names := by
  obtain ⟨news, h1, h2, h3, h4, h5⟩ :=
    skolemize_fold_spec (NaturalProof.prenex_normalize F).1 [] L
      (NaturalProof.prenex_normalize F).2
  have hsk1 : (NaturalProof.skolemize L F).1.function_symbols =
      L.function_symbols ++ news := h1
  have hsk2 : (NaturalProof.skolemize L F).2 =
      ((NaturalProof.prenex_normalize F).1.foldl NaturalProof.skolemize_step
        ([], L, (NaturalProof.prenex_normalize F).2)).2.2 := rfl
  refine ⟨?_, ?_, ?_, ?_, ?_, ?_⟩
  · rw [hsk2, h5, NaturalProof.prenex_normalize]
    exact prenex_normalize_from_body_qfree F 0 _
  · rw [hsk1]; exact List.prefix_append _ _
  · rw [hsk1, List.length_append]
    have hc : news.length = ((NaturalProof.prenex_normalize F).1.filter
        (fun vk => vk.2 = NaturalProof.QuantifierKind.EXISTENTIAL)).length := by
      have := congrArg List.length h3
      simpa using this
    omega
  · rw [hsk1, List.drop_left]
    simpa using h2
  · rw [hsk1, List.drop_left]
    exact h3
  · intro g hg
    rw [hsk1] at hg
    rcases List.mem_append.1 hg with h | h
    · exact Or.inl h
    · refine Or.inr ?_
      intro hmem
      obtain ⟨g2, hg2, hname⟩ := List.mem_map.1 hmem
      have hlen : g.name.length ≤ L.max_function_name_length := by
        rw [← hname]
        exact name_length_le_max hg2
      exact Nat.lt_irrefl _ (Nat.lt_of_le_of_lt hlen (h4 g h))

/-- A concrete uninterpreted sort for the concrete test inputs. -/
def PointerSort : FOSort := ⟨"Pointer", none⟩

/-- A concrete nullary function symbol of the pointer sort. -/
def NilSymbol : FunctionSymbol := ⟨[], PointerSort, "nil"⟩

/-- A concrete language with one sort and one nullary function symbol. -/
def PointerLanguage : Language := ⟨[PointerSort], [NilSymbol], []⟩

/-- C2 witness: the skolemization theorem applied at a concrete language and
formula, with the membership hypothesis of its freshness conjunct discharged
at the concrete symbol. -/
theorem C2_witness :
    NilSymbol ∈ (NaturalProof.skolemize PointerLanguage Formula.Verum).1.function_symbols ∧
    (NilSymbol ∈ PointerLanguage.function_symbols ∨
      ¬ NilSymbol.name ∈ PointerLanguage.function_names) := by
  have hp : NaturalProof.prenex_normalize Formula.Verum = ([], Formula.Verum) := by
    rw [NaturalProof.prenex_normalize, NaturalProof.prenex_normalize_from]
  have hsk : NaturalProof.skolemize PointerLanguage Formula.Verum =
      (PointerLanguage, Formula.Verum) := by
    simp [NaturalProof.skolemize, hp]
  have hmem : NilSymbol ∈
      (NaturalProof.skolemize PointerLanguage Formula.Verum).1.function_symbols := by
    rw [hsk]
    simp [PointerLanguage]
  exact ⟨hmem,
    (C2_skolemize_full PointerLanguage Formula.Verum).2.2.2.2.2 NilSymbol hmem⟩

/-- `Nat.toDigitsCore` with positive fuel prepends at least one digit. -/
theorem toDigitsCore_length_ge (b : Nat) :
    ∀ (fuel n : Nat) (ds : List Char), 0 < fuel →
      ds.length + 1 ≤ (Nat.toDigitsCore b fuel n ds).length := by
  intro fuel
  induction fuel with
  | zero => intro n ds h; omega
  | succ f ih =>
      intro n ds _
      rw [Nat.toDigitsCore]
      by_cases h : n / b = 0
      · simp [h]
      · simp only [if_neg h]
        by_cases hf : 0 < f
        · have := ih (n / b) (Nat.digitChar (n % b) :: ds) hf
          simp at this ⊢
          omega
        · have hf0 : f = 0 := by omega
          subst hf0
          simp [Nat.toDigitsCore]

/-- The decimal rendering of a natural number is never the empty string. -/
theorem toString_nat_length_pos (n : Nat) : 0 < (toString n).length := by
  show 0 < (Nat.repr n).length
  rw [Nat.repr]
  have h : 0 < (Nat.toDigits 10 n).length := by
    rw [Nat.toDigits]
    have := toDigitsCore_length_ge 10 (n + 1) n [] (by omega)
    simpa using this
  simpa [List.asString, String.length] using h

/-- The running accumulator of the argument loop of
`get_longest_variable_name` never shrinks. -/
theorem lvn_args_mono (args : List Term) :
    ∀ acc : String,
      acc.length ≤ (NaturalProof.get_longest_variable_name_args args acc).length := by
  induction args with
  | nil => intro acc; simp [NaturalProof.get_longest_variable_name_args]
  | cons a rest ih =>
      intro acc
      by_cases h : (NaturalProof.get_longest_variable_name_term a "x").length > acc.length
      · simp only [NaturalProof.get_longest_variable_name_args, if_pos h]
        exact Nat.le_trans (Nat.le_of_lt h) (ih _)
      · simp only [NaturalProof.get_longest_variable_name_args, if_neg h]
        exact ih acc

mutual

/-- `get_longest_variable_name` on a term bounds the length of every variable
name in the term. -/
theorem lvn_term_bound : ∀ (t : Term) (dflt n : String),
    n ∈ Term.var_names t →
      n.length ≤ (NaturalProof.get_longest_variable_name_term t dflt).length
  | .var v, dflt, n, hn => by
      have hv : n = v.name := by simpa [Term.var_names] using hn
      subst hv
      simp [NaturalProof.get_longest_variable_name_term]
  | .app f args, dflt, n, hn =>
      lvn_args_bound args dflt n (by simpa [Term.var_names] using hn)

/-- The argument loop of `get_longest_variable_name` bounds the length of
every variable name in the arguments. -/
theorem lvn_args_bound : ∀ (args : List Term) (acc n : String),
    n ∈ Term.var_names_list args →
      n.length ≤ (NaturalProof.get_longest_variable_name_args args acc).length
  | [], acc, n, hn => by simp [Term.var_names_list] at hn
  | a :: rest, acc, n, hn => by
      rcases List.mem_append.1 (by simpa [Term.var_names_list] using hn) with h | h
      · have h1 := lvn_term_bound a "x" n h
        by_cases hc : (NaturalProof.get_longest_variable_name_term a "x").length > acc.length
        · simp only [NaturalProof.get_longest_variable_name_args, if_pos hc]
          exact Nat.le_trans h1 (lvn_args_mono rest _)
        · simp only [NaturalProof.get_longest_variable_name_args, if_neg hc]
          exact Nat.le_trans (Nat.le_trans h1 (Nat.le_of_not_lt hc)) (lvn_args_mono rest acc)
      · by_cases hc : (NaturalProof.get_longest_variable_name_term a "x").length > acc.length
        · simp only [NaturalProof.get_longest_variable_name_args, if_pos hc]
          exact lvn_args_bound rest _ n h
        · simp only [NaturalProof.get_longest_variable_name_args, if_neg hc]
          exact lvn_args_bound rest acc n h

end

/-- Length bound through the longer-of-two choice used by the binary cases of
`get_longest_variable_name` (left preferred on ties). -/
theorem pick_length_left {a b : String} :
    a.length ≤ (if a.length ≥ b.length then a else b).length := by
  by_cases h : a.length ≥ b.length
  · simp [h]
  · simp only [if_neg h]; omega

/-- Length bound through the longer-of-two choice, right argument. -/
theorem pick_length_right {a b : String} :
    b.length ≤ (if a.length ≥ b.length then a else b).length := by
  by_cases h : a.length ≥ b.length
  · simp only [if_pos h]; omega
  · simp [h]

/-- `get_longest_variable_name` on a formula bounds the length of every
variable name occurring anywhere in the formula. -/
theorem lvn_formula_bound (F : Formula) : ∀ (dflt n : String),
    n ∈ F.var_names →
      n.length ≤ (NaturalProof.get_longest_variable_name_formula F dflt).length := by
  induction F with
  | Falsum => intro d n hn; simp [Formula.var_names] at hn
  | Verum => intro d n hn; simp [Formula.var_names] at hn
  | RelationApplication r args =>
      intro d n hn
      exact lvn_args_bound args d n (by simpa [Formula.var_names] using hn)
  | Equality l r =>
      intro d n hn
      rw [NaturalProof.get_longest_variable_name_formula]
      rcases List.mem_append.1 (by simpa [Formula.var_names] using hn) with h | h
      · have h1 := lvn_term_bound l "x" n h
        by_cases hc : (NaturalProof.get_longest_variable_name_term r "x").length >
            (NaturalProof.get_longest_variable_name_term l "x").length
        · simp only [if_pos hc]; omega
        · simp only [if_neg hc]; omega
      · have h1 := lvn_term_bound r "x" n h
        by_cases hc : (NaturalProof.get_longest_variable_name_term r "x").length >
            (NaturalProof.get_longest_variable_name_term l "x").length
        · simp only [if_pos hc]; omega
        · simp only [if_neg hc]; omega
  | Conjunction l r ihl ihr =>
      intro d n hn
      rw [NaturalProof.get_longest_variable_name_formula]
      rcases List.mem_append.1 (by simpa [Formula.var_names] using hn) with h | h
      · exact Nat.le_trans (ihl "x" n h) pick_length_left
      · exact Nat.le_trans (ihr "x" n h) pick_length_right
  | Disjunction l r ihl ihr =>
      intro d n hn
      rw [NaturalProof.get_longest_variable_name_formula]
      rcases List.mem_append.1 (by simpa [Formula.var_names] using hn) with h | h
      · exact Nat.le_trans (ihl "x" n h) pick_length_left
      · exact Nat.le_trans (ihr "x" n h) pick_length_right
  | Negation f ih =>
      intro d n hn
      rw [NaturalProof.get_longest_variable_name_formula]
      exact ih "x" n (by simpa [Formula.var_names] using hn)
  | Implication l r ihl ihr =>
      intro d n hn
      rw [NaturalProof.get_longest_variable_name_formula]
      rcases List.mem_append.1 (by simpa [Formula.var_names] using hn) with h | h
      · exact Nat.le_trans (ihl "x" n h) pick_length_left
      · exact Nat.le_trans (ihr "x" n h) pick_length_right
  | Equivalence l r ihl ihr =>
      intro d n hn
      rw [NaturalProof.get_longest_variable_name_formula]
      rcases List.mem_append.1 (by simpa [Formula.var_names] using hn) with h | h
      · exact Nat.le_trans (ihl "x" n h) pick_length_left
      · exact Nat.le_trans (ihr "x" n h) pick_length_right
  | UniversalQuantification v body ih =>
      intro d n hn
      rw [NaturalProof.get_longest_variable_name_formula]
      rcases List.mem_cons.1 (by simpa [Formula.var_names] using hn) with h | h
      · subst h; exact pick_length_left
      · exact Nat.le_trans (ih "x" n h) pick_length_right
  | ExistentialQuantification v body ih =>
      intro d n hn
      rw [NaturalProof.get_longest_variable_name_formula]
      rcases List.mem_cons.1 (by simpa [Formula.var_names] using hn) with h | h
      · subst h; exact pick_length_left
      · exact Nat.le_trans (ih "x" n h) pick_length_right

/-- Every bound variable in the quantifier list produced by
`prenex_normalize_from` is named `<seed><index>` for some index. -/
theorem prenex_quant_names (F : Formula) (i : Nat) (p : String) :
    ∀ vk ∈ (NaturalProof.prenex_normalize_from F i p).1,
      ∃ j : Nat, vk.1.name = p ++ toString j := by
  induction F, i, p using NaturalProof.prenex_normalize_from.induct with
  | case1 i p => rw [NaturalProof.prenex_normalize_from]; intro vk hvk; cases hvk
  | case2 i p => rw [NaturalProof.prenex_normalize_from]; intro vk hvk; cases hvk
  | case3 i p rel args => rw [NaturalProof.prenex_normalize_from]; intro vk hvk; cases hvk
  | case4 i p l r => rw [NaturalProof.prenex_normalize_from]; intro vk hvk; cases hvk
  | case5 i p l r lp ihl ihr =>
      rw [NaturalProof.prenex_normalize_from]
      intro vk hvk
      rcases List.mem_append.1 (by simpa using hvk) with h | h
      · exact ihl vk h
      · exact ihr vk h
  | case6 i p l r lp ihl ihr =>
      rw [NaturalProof.prenex_normalize_from]
      intro vk hvk
      rcases List.mem_append.1 (by simpa using hvk) with h | h
      · exact ihl vk h
      · exact ihr vk h
  | case7 i p f ih =>
      rw [NaturalProof.prenex_normalize_from]
      intro vk hvk
      have hvk2 : vk ∈ ((NaturalProof.prenex_normalize_from f i p).1).map
          (fun w => (w.1, w.2.dual)) := hvk
      obtain ⟨w, hw, hweq⟩ := List.mem_map.1 hvk2
      obtain ⟨j, hj⟩ := ih w hw
      exact ⟨j, by rw [← hweq]; exact hj⟩
  | case8 i p l r lp ihl ihr =>
      rw [NaturalProof.prenex_normalize_from]
      intro vk hvk
      have hvk2 : vk ∈ ((NaturalProof.prenex_normalize_from l i p).1).map
          (fun w => (w.1, w.2.dual)) ++
          (NaturalProof.prenex_normalize_from r
            (i + ((NaturalProof.prenex_normalize_from l i p).1).length) p).1 := hvk
      rcases List.mem_append.1 hvk2 with h | h
      · obtain ⟨w, hw, hweq⟩ := List.mem_map.1 h
        obtain ⟨j, hj⟩ := ihl w hw
        exact ⟨j, by rw [← hweq]; exact hj⟩
      · exact ihr vk h
  | case9 i p l r ih =>
      rw [NaturalProof.prenex_normalize_from]
      exact ih
  | case10 i p v body ih =>
      rw [NaturalProof.prenex_normalize_from]
      intro vk hvk
      rcases List.mem_cons.1 (by simpa using hvk) with h | h
      · exact ⟨i, by rw [h]⟩
      · exact ih vk h
  | case11 i p v body ih =>
      rw [NaturalProof.prenex_normalize_from]
      intro vk hvk
      rcases List.mem_cons.1 (by simpa using hvk) with h | h
      · exact ⟨i, by rw [h]⟩
      · exact ih vk h

/-- C3: every bound-variable name introduced by `prenex_normalize` is strictly
longer than every variable name occurring anywhere in the input formula, so no
introduced name collides with an existing one. -/
theorem C3_introduced_names_fresh (F : Formula) :
    ∀ vk ∈ (NaturalProof.prenex_normalize F).1, ∀ n ∈ F.var_names,
      n.length < vk.1.name.length := by
  intro vk hvk n hn
  obtain ⟨j, hj⟩ :=
    prenex_quant_names F 0 (NaturalProof.get_longest_variable_name F) vk hvk
  rw [hj, String.length_append]
  have h1 := lvn_formula_bound F "x" n hn
  have h2 := toString_nat_length_pos j
  have h3 : NaturalProof.get_longest_variable_name F =
      NaturalProof.get_longest_variable_name_formula F "x" := rfl
  rw [h3]
  omega

/-- The concrete input of the C3 witness: an existential quantifier over a
variable named "ab". -/
def C3Formula : Formula :=
  .ExistentialQuantification ⟨"ab", PointerSort⟩
    (.Equality (.var ⟨"ab", PointerSort⟩) (.var ⟨"ab", PointerSort⟩))

/-- C3 witness: the freshness theorem applied at a concrete formula, with both
membership hypotheses discharged concretely. -/
theorem C3_witness :
    (⟨⟨"ab0", PointerSort⟩, NaturalProof.QuantifierKind.EXISTENTIAL⟩ :
        Variable × NaturalProof.QuantifierKind) ∈
      (NaturalProof.prenex_normalize C3Formula).1 ∧
    "ab" ∈ C3Formula.var_names ∧
    ("ab" : String).length < ("ab0" : String).length := by
  have hlvn : NaturalProof.get_longest_variable_name C3Formula = "ab" := by decide
  have hpn : (NaturalProof.prenex_normalize C3Formula).1 =
      [⟨⟨"ab0", PointerSort⟩, NaturalProof.QuantifierKind.EXISTENTIAL⟩] := by
    rw [NaturalProof.prenex_normalize, hlvn]
    simp only [C3Formula, NaturalProof.prenex_normalize_from]
    decide
  have hmem : (⟨⟨"ab0", PointerSort⟩, NaturalProof.QuantifierKind.EXISTENTIAL⟩ :
      Variable × NaturalProof.QuantifierKind) ∈ (NaturalProof.prenex_normalize C3Formula).1 := by
    rw [hpn]; simp
  have hname : "ab" ∈ C3Formula.var_names := by decide
  exact ⟨hmem, hname, C3_introduced_names_fresh C3Formula _ hmem "ab" hname⟩

/-- A list is a prefix of its `insertNew` extension. -/
theorem prefix_insertNew {α : Type} [DecidableEq α] (xs : List α) (x : α) :
    xs <+: insertNew xs x := by
  unfold insertNew
  by_cases h : x ∈ xs
  · simp [h]
  · simp [h]

/-- A list is a prefix of any `insertNew` fold over it. -/
theorem prefix_foldl_insertNew {α : Type} [DecidableEq α] (l : List α) :
    ∀ xs : List α, xs <+: l.foldl insertNew xs := by
  induction l with
  | nil => intro xs; exact List.prefix_refl xs
  | cons a rest ih =>
      intro xs
      exact List.IsPrefix.trans (prefix_insertNew xs a) (ih (insertNew xs a))

/-- `insertNew` folding preserves membership. -/
theorem mem_foldl_insertNew_of_mem {α : Type} [DecidableEq α] {x : α} {xs : List α}
    (l : List α) (h : x ∈ xs) : x ∈ l.foldl insertNew xs :=
  (prefix_foldl_insertNew l xs).subset h

/-- Every folded-in element is a member of the `insertNew` fold. -/
theorem mem_foldl_insertNew_of_mem_list {α : Type} [DecidableEq α] {x : α} :
    ∀ (l : List α) (xs : List α), x ∈ l → x ∈ l.foldl insertNew xs := by
  intro l
  induction l with
  | nil => intro xs h; cases h
  | cons a rest ih =>
      intro xs h
      rcases List.mem_cons.1 h with h | h
      · subst h
        rw [List.foldl_cons]
        apply mem_foldl_insertNew_of_mem
        unfold insertNew
        by_cases hx : x ∈ xs
        · simp [hx]
        · simp [hx]
      · rw [List.foldl_cons]
        exact ih _ h

/-- Folding in elements that are already present changes nothing. -/
theorem foldl_insertNew_id {α : Type} [DecidableEq α] :
    ∀ (l : List α) (xs : List α), (∀ x ∈ l, x ∈ xs) → l.foldl insertNew xs = xs := by
  intro l
  induction l with
  | nil => intro xs _; rfl
  | cons a rest ih =>
      intro xs h
      have ha : insertNew xs a = xs := by
        unfold insertNew
        simp [h a (List.mem_cons_self a rest)]
      rw [List.foldl_cons, ha]
      exact ih xs (fun x hx => h x (List.mem_cons_of_mem a hx))

mutual

/-- The empty substitution leaves a term unchanged. -/
theorem term_substitute_empty : ∀ t : Term, Term.substitute [] t = t
  | .var v => rfl
  | .app f args => by
      rw [Term.substitute, term_list_substitute_empty]

/-- The empty substitution leaves a list of terms unchanged. -/
theorem term_list_substitute_empty : ∀ ts : List Term, Term.substituteList [] ts = ts
  | [] => rfl
  | t :: ts => by
      rw [Term.substituteList, term_substitute_empty, term_list_substitute_empty]

end

/-- The empty substitution leaves a formula unchanged. -/
theorem Formula.substitute_empty (F : Formula) : F.substitute [] = F := by
  induction F with
  | Falsum => rfl
  | Verum => rfl
  | RelationApplication r args => rw [Formula.substitute, term_list_substitute_empty]
  | Equality l r => rw [Formula.substitute, term_substitute_empty, term_substitute_empty]
  | Conjunction l r ihl ihr => rw [Formula.substitute, ihl, ihr]
  | Disjunction l r ihl ihr => rw [Formula.substitute, ihl, ihr]
  | Negation f ih => rw [Formula.substitute, ih]
  | Implication l r ihl ihr => rw [Formula.substitute, ihl, ihr]
  | Equivalence l r ihl ihr => rw [Formula.substitute, ihl, ihr]
  | UniversalQuantification v body ih => rw [Formula.substitute]; rw [show (List.filter (fun p => p.1 ≠ v) ([] : Substitution)) = [] from rfl, ih]
  | ExistentialQuantification v body ih => rw [Formula.substitute]; rw [show (List.filter (fun p => p.1 ≠ v) ([] : Substitution)) = [] from rfl, ih]

/-- State extension: the three set components only ever grow by appending. -/
def TIExtends (s1 s2 : NaturalProof.TIState) : Prop :=
  s1.ground_terms <+: s2.ground_terms ∧
  s1.instantiated_formulas <+: s2.instantiated_formulas ∧
  s1.emitted <+: s2.emitted

/-- State extension is reflexive. -/
theorem TIExtends.refl (st : NaturalProof.TIState) : TIExtends st st :=
  ⟨List.prefix_refl _, List.prefix_refl _, List.prefix_refl _⟩

/-- State extension is transitive. -/
theorem TIExtends.trans {s1 s2 s3 : NaturalProof.TIState}
    (h1 : TIExtends s1 s2) (h2 : TIExtends s2 s3) : TIExtends s1 s3 :=
  ⟨h1.1.trans h2.1, h1.2.1.trans h2.2.1, h1.2.2.trans h2.2.2⟩

/-- One assignment step only appends to the state. -/
theorem pa_extends (fg : FOSort) (F : Formula) (fv : List Variable)
    (st : NaturalProof.TIState) (a : List Term) :
    TIExtends st (NaturalProof.process_assignment fg F fv st a) := by
  unfold NaturalProof.process_assignment
  by_cases h : F.substitute (fv.zip a) ∈ st.instantiated_formulas
  · simp only [if_pos h]
    exact ⟨prefix_foldl_insertNew _ _, List.prefix_refl _, List.prefix_refl _⟩
  · simp only [if_neg h]
    exact ⟨prefix_foldl_insertNew _ _, List.prefix_append _ _, List.prefix_append _ _⟩

/-- A fold of assignment steps only appends to the state. -/
theorem foldl_pa_extends (fg : FOSort) (F : Formula) (fv : List Variable) :
    ∀ (as : List (List Term)) (st : NaturalProof.TIState),
      TIExtends st (as.foldl (NaturalProof.process_assignment fg F fv) st) := by
  intro as
  induction as with
  | nil => intro st; exact TIExtends.refl st
  | cons a rest ih =>
      intro st
      exact (pa_extends fg F fv st a).trans (ih _)

/-- Processing one formula only appends to the state. -/
theorem pf_extends (fg : FOSort) (st : NaturalProof.TIState) (F : Formula) :
    TIExtends st (NaturalProof.process_formula fg st F) :=
  foldl_pa_extends fg F _ _ st

/-- One round only appends to the state. -/
theorem round_extends (fg : FOSort) (formulas : List Formula) :
    ∀ st : NaturalProof.TIState, TIExtends st (NaturalProof.process_round fg formulas st) := by
  unfold NaturalProof.process_round
  induction formulas with
  | nil => intro st; exact TIExtends.refl st
  | cons F rest ih =>
      intro st
      rw [List.foldl_cons]
      exact (pf_extends fg st F).trans (ih _)

/-- Any number of rounds only appends to the state. -/
theorem run_rounds_extends (fg : FOSort) (formulas : List Formula) :
    ∀ (fuel : Nat) (st : NaturalProof.TIState),
      TIExtends st (NaturalProof.run_rounds fg formulas fuel st) := by
  intro fuel
  induction fuel with
  | zero => intro st; exact TIExtends.refl st
  | succ n ih =>
      intro st
      rw [NaturalProof.run_rounds]
      have h1 : TIExtends st (NaturalProof.process_round fg formulas
          { st with has_new_formula := false }) :=
        round_extends fg formulas { st with has_new_formula := false }
      by_cases h : (NaturalProof.process_round fg formulas
          { st with has_new_formula := false }).has_new_formula
      · simp only [if_pos h]
        exact h1.trans (ih _)
      · simp only [if_neg h]
        exact h1

/-- The `has_new_formula` flag is only ever raised by an assignment step. -/
theorem pa_new_mono (fg : FOSort) (F : Formula) (fv : List Variable)
    (st : NaturalProof.TIState) (a : List Term)
    (h : st.has_new_formula = true) :
    (NaturalProof.process_assignment fg F fv st a).has_new_formula = true := by
  unfold NaturalProof.process_assignment
  by_cases hm : F.substitute (fv.zip a) ∈ st.instantiated_formulas
  · simp [hm, h]
  · simp [hm]

/-- The flag stays raised across a fold of assignment steps. -/
theorem foldl_pa_new_mono (fg : FOSort) (F : Formula) (fv : List Variable) :
    ∀ (as : List (List Term)) (st : NaturalProof.TIState),
      st.has_new_formula = true →
      (as.foldl (NaturalProof.process_assignment fg F fv) st).has_new_formula = true := by
  intro as
  induction as with
  | nil => intro st h; exact h
  | cons a rest ih =>
      intro st h
      exact ih _ (pa_new_mono fg F fv st a h)

/-- The flag stays raised across one formula. -/
theorem pf_new_mono (fg : FOSort) (st : NaturalProof.TIState) (F : Formula)
    (h : st.has_new_formula = true) :
    (NaturalProof.process_formula fg st F).has_new_formula = true :=
  foldl_pa_new_mono fg F _ _ st h

/-- The flag stays raised across one round. -/
theorem round_new_mono (fg : FOSort) (formulas : List Formula) :
    ∀ st : NaturalProof.TIState, st.has_new_formula = true →
      (NaturalProof.process_round fg formulas st).has_new_formula = true := by
  unfold NaturalProof.process_round
  induction formulas with
  | nil => intro st h; exact h
  | cons F rest ih =>
      intro st h
      rw [List.foldl_cons]
      exact ih _ (pf_new_mono fg st F h)

/-- Reduction of `term_instantiate` to its round loop when no precondition is
violated. -/
theorem term_instantiate_ok (L : Language) (fg : FOSort) (formulas : List Formula)
    (d : Int) (hhook : fg.smt_hook = none)
    (hseed : NaturalProof.seed_ground_terms L fg formulas ≠ [])
    (hd : 0 ≤ d) :
    NaturalProof.term_instantiate L fg formulas d =
      .ok (NaturalProof.run_rounds fg formulas d.toNat
        (NaturalProof.initial_state L fg formulas)).emitted := by
  unfold NaturalProof.term_instantiate
  rw [if_neg (by simp [hhook]), if_neg hseed, if_neg (by omega)]

/-- Running more rounds extends both the emitted sequence and the ground-term
set, as prefixes. -/
theorem run_rounds_mono (fg : FOSort) (formulas : List Formula) :
    ∀ (k1 k2 : Nat), k1 ≤ k2 → ∀ st : NaturalProof.TIState,
      (NaturalProof.run_rounds fg formulas k1 st).emitted <+:
        (NaturalProof.run_rounds fg formulas k2 st).emitted ∧
      (NaturalProof.run_rounds fg formulas k1 st).ground_terms <+:
        (NaturalProof.run_rounds fg formulas k2 st).ground_terms := by
  intro k1
  induction k1 with
  | zero =>
      intro k2 _ st
      have h := run_rounds_extends fg formulas k2 st
      exact ⟨h.2.2, h.1⟩
  | succ n ih =>
      intro k2 hk st
      cases k2 with
      | zero => omega
      | succ m =>
          simp only [NaturalProof.run_rounds]
          by_cases h : (NaturalProof.process_round fg formulas
              { st with has_new_formula := false }).has_new_formula
          · simp only [if_pos h]
            exact ih m (by omega) _
          · simp only [if_neg h]
            exact ⟨List.prefix_refl _, List.prefix_refl _⟩

/-- C6: for the same inputs and depths `d1 < d2` (both legal), both calls
succeed, the formula sequence emitted at depth `d1` is a prefix of the one
emitted at depth `d2`, and the insertion-ordered ground-term set after `d1`
rounds is a prefix of the one after `d2` rounds. -/
theorem C6_instantiation_monotonicity (L : Language) (fg : FOSort)
    (formulas : List Formula) (d1 d2 : Int)
    (h0 : 0 ≤ d1) (h12 : d1 < d2) (hhook : fg.smt_hook = none)
    (hseed : NaturalProof.seed_ground_terms L fg formulas ≠ []) :
    (∃ l1 l2, NaturalProof.term_instantiate L fg formulas d1 = .ok l1 ∧
      NaturalProof.term_instantiate L fg formulas d2 = .ok l2 ∧ l1 <+: l2) ∧
    (NaturalProof.run_rounds fg formulas d1.toNat
        (NaturalProof.initial_state L fg formulas)).ground_terms <+:
      (NaturalProof.run_rounds fg formulas d2.toNat
        (NaturalProof.initial_state L fg formulas)).ground_terms := by
  have hmono := run_rounds_mono fg formulas d1.toNat d2.toNat (by omega)
    (NaturalProof.initial_state L fg formulas)
  refine ⟨⟨_, _, term_instantiate_ok L fg formulas d1 hhook hseed h0,
    term_instantiate_ok L fg formulas d2 hhook hseed (by omega), hmono.1⟩, hmono.2⟩

/-- C6 witness: the monotonicity theorem applied at a concrete language,
formula list and depth pair. -/
theorem C6_witness :
    (∃ l1 l2,
      NaturalProof.term_instantiate PointerLanguage PointerSort [Formula.Verum] 0 =
        .ok l1 ∧
      NaturalProof.term_instantiate PointerLanguage PointerSort [Formula.Verum] 2 =
        .ok l2 ∧ l1 <+: l2) ∧
    (NaturalProof.run_rounds PointerSort [Formula.Verum] (0 : Int).toNat
        (NaturalProof.initial_state PointerLanguage PointerSort
          [Formula.Verum])).ground_terms <+:
      (NaturalProof.run_rounds PointerSort [Formula.Verum] (2 : Int).toNat
        (NaturalProof.initial_state PointerLanguage PointerSort
          [Formula.Verum])).ground_terms :=
  C6_instantiation_monotonicity PointerLanguage PointerSort [Formula.Verum] 0 2
    (by decide) (by decide) (by decide) (by decide)

/-- The two possible outcomes of one assignment step, with the exact resulting
state in each. -/
theorem pa_cases (fg : FOSort) (F : Formula) (fv : List Variable)
    (st : NaturalProof.TIState) (a : List Term) :
    (F.substitute (fv.zip a) ∈ st.instantiated_formulas ∧
      NaturalProof.process_assignment fg F fv st a =
        { st with ground_terms := (NaturalProof.get_all_ground_terms fg
            (F.substitute (fv.zip a))).foldl insertNew st.ground_terms }) ∨
    (¬ F.substitute (fv.zip a) ∈ st.instantiated_formulas ∧
      NaturalProof.process_assignment fg F fv st a =
        ⟨(NaturalProof.get_all_ground_terms fg (F.substitute (fv.zip a))).foldl
            insertNew st.ground_terms,
          st.instantiated_formulas ++ [F.substitute (fv.zip a)],
          st.emitted ++ [F.substitute (fv.zip a)], true⟩) := by
  by_cases hmem : F.substitute (fv.zip a) ∈ st.instantiated_formulas
  · exact Or.inl ⟨hmem, by unfold NaturalProof.process_assignment; simp [hmem]⟩
  · exact Or.inr ⟨hmem, by unfold NaturalProof.process_assignment; simp [hmem]⟩

/-- The invariant threaded through the rounds: every ground term of every
already instantiated formula has been recorded in the ground-term set. -/
def ti_invariant (fg : FOSort) (st : NaturalProof.TIState) : Prop :=
  ∀ G ∈ st.instantiated_formulas,
    ∀ t ∈ NaturalProof.get_all_ground_terms fg G, t ∈ st.ground_terms

instance (fg : FOSort) (st : NaturalProof.TIState) : Decidable (ti_invariant fg st) := by
  unfold ti_invariant
  exact inferInstance

/-- An assignment step on an already-instantiated, already-recorded formula is
the identity. -/
theorem pa_id (fg : FOSort) (F : Formula) (fv : List Variable)
    (st : NaturalProof.TIState) (a : List Term)
    (hmem : F.substitute (fv.zip a) ∈ st.instantiated_formulas)
    (hg : ∀ t ∈ NaturalProof.get_all_ground_terms fg (F.substitute (fv.zip a)),
      t ∈ st.ground_terms) :
    NaturalProof.process_assignment fg F fv st a = st := by
  rcases pa_cases fg F fv st a with ⟨_, heq⟩ | ⟨hnm, _⟩
  · rw [heq, foldl_insertNew_id _ _ hg]
  · exact absurd hmem hnm

/-- An assignment step that leaves the flag down found nothing new. -/
theorem pa_new_false (fg : FOSort) (F : Formula) (fv : List Variable)
    (st : NaturalProof.TIState) (a : List Term)
    (h : (NaturalProof.process_assignment fg F fv st a).has_new_formula = false) :
    st.has_new_formula = false ∧
      F.substitute (fv.zip a) ∈ st.instantiated_formulas := by
  rcases pa_cases fg F fv st a with ⟨hmem, heq⟩ | ⟨hnm, heq⟩
  · rw [heq] at h
    exact ⟨h, hmem⟩
  · rw [heq] at h
    cases h

/-- An assignment fold that leaves the flag down is the identity, given the
invariant. -/
theorem foldl_pa_id (fg : FOSort) (F : Formula) (fv : List Variable) :
    ∀ (as : List (List Term)) (st : NaturalProof.TIState),
      ti_invariant fg st → st.has_new_formula = false →
      ((as.foldl (NaturalProof.process_assignment fg F fv) st).has_new_formula = false) →
      as.foldl (NaturalProof.process_assignment fg F fv) st = st := by
  intro as
  induction as with
  | nil => intro st _ _ _; rfl
  | cons a rest ih =>
      intro st hinv hb hfinal
      rw [List.foldl_cons] at hfinal ⊢
      have hnf : (NaturalProof.process_assignment fg F fv st a).has_new_formula = false := by
        by_cases hx : (NaturalProof.process_assignment fg F fv st a).has_new_formula
        · exfalso
          have hm := foldl_pa_new_mono fg F fv rest _ hx
          rw [hm] at hfinal
          cases hfinal
        · simpa using hx
      obtain ⟨h1, h2⟩ := pa_new_false fg F fv st a hnf
      have hid : NaturalProof.process_assignment fg F fv st a = st :=
        pa_id fg F fv st a h2 (hinv _ h2)
      rw [hid] at hfinal ⊢
      exact ih st hinv hb hfinal

/-- Processing one formula with the flag still down is the identity, given the
invariant. -/
theorem pf_id (fg : FOSort) (st : NaturalProof.TIState) (F : Formula)
    (hinv : ti_invariant fg st) (hb : st.has_new_formula = false)
    (hfinal : (NaturalProof.process_formula fg st F).has_new_formula = false) :
    NaturalProof.process_formula fg st F = st :=
  foldl_pa_id fg F _ _ st hinv hb hfinal

/-- A round with the flag still down at the end is the identity, given the
invariant. -/
theorem round_id (fg : FOSort) (formulas : List Formula) :
    ∀ st : NaturalProof.TIState, ti_invariant fg st → st.has_new_formula = false →
      (NaturalProof.process_round fg formulas st).has_new_formula = false →
      NaturalProof.process_round fg formulas st = st := by
  unfold NaturalProof.process_round
  induction formulas with
  | nil => intro st _ _ _; rfl
  | cons F rest ih =>
      intro st hinv hb hfinal
      rw [List.foldl_cons] at hfinal ⊢
      have hnf : (NaturalProof.process_formula fg st F).has_new_formula = false := by
        by_cases hx : (NaturalProof.process_formula fg st F).has_new_formula
        · exfalso
          have hm : ((rest.foldl (NaturalProof.process_formula fg)
              (NaturalProof.process_formula fg st F))).has_new_formula = true :=
            round_new_mono fg rest _ hx
          rw [hm] at hfinal
          cases hfinal
        · simpa using hx
      have hid := pf_id fg st F hinv hb hnf
      rw [hid] at hfinal ⊢
      exact ih st hinv hb hfinal

/-- One assignment step preserves the invariant. -/
theorem pa_inv (fg : FOSort) (F : Formula) (fv : List Variable)
    (st : NaturalProof.TIState) (a : List Term)
    (h : ti_invariant fg st) :
    ti_invariant fg (NaturalProof.process_assignment fg F fv st a) := by
  rcases pa_cases fg F fv st a with ⟨hmem, heq⟩ | ⟨hnm, heq⟩ <;> rw [heq] <;> intro G hG t ht
  · exact mem_foldl_insertNew_of_mem _ (h G hG t ht)
  · rcases List.mem_append.1 hG with hH | hH
    · exact mem_foldl_insertNew_of_mem _ (h G hH t ht)
    · have hGe : G = F.substitute (fv.zip a) := by simpa using hH
      subst hGe
      exact mem_foldl_insertNew_of_mem_list _ _ ht

/-- An assignment fold preserves the invariant. -/
theorem foldl_pa_inv (fg : FOSort) (F : Formula) (fv : List Variable) :
    ∀ (as : List (List Term)) (st : NaturalProof.TIState),
      ti_invariant fg st →
      ti_invariant fg (as.foldl (NaturalProof.process_assignment fg F fv) st) := by
  intro as
  induction as with
  | nil => intro st h; exact h
  | cons a rest ih =>
      intro st h
      rw [List.foldl_cons]
      exact ih _ (pa_inv fg F fv st a h)

/-- Processing one formula preserves the invariant. -/
theorem pf_inv (fg : FOSort) (st : NaturalProof.TIState) (F : Formula)
    (h : ti_invariant fg st) :
    ti_invariant fg (NaturalProof.process_formula fg st F) :=
  foldl_pa_inv fg F _ _ st h

/-- One round preserves the invariant. -/
theorem round_inv (fg : FOSort) (formulas : List Formula) :
    ∀ st : NaturalProof.TIState, ti_invariant fg st →
      ti_invariant fg (NaturalProof.process_round fg formulas st) := by
  unfold NaturalProof.process_round
  induction formulas with
  | nil => intro st h; exact h
  | cons F rest ih =>
      intro st h
      rw [List.foldl_cons]
      exact ih _ (pf_inv fg st F h)

/-- Resetting an already-lowered flag changes nothing. -/
theorem reset_eq_self {st : NaturalProof.TIState} (h : st.has_new_formula = false) :
    { st with has_new_formula := false } = st := by
  cases st
  simp_all

/-- Extra no-break rounds after a fixpoint round change nothing. -/
theorem run_rounds_no_break_fix (fg : FOSort) (formulas : List Formula) :
    ∀ (k : Nat) (st : NaturalProof.TIState),
      NaturalProof.process_round fg formulas st = st →
      st.has_new_formula = false →
      NaturalProof.run_rounds_no_break fg formulas k st = st := by
  intro k
  induction k with
  | zero => intro st _ _; rfl
  | succ n ih =>
      intro st hr hb
      rw [NaturalProof.run_rounds_no_break, reset_eq_self hb, hr]
      exact ih st hr hb

/-- With the invariant, the early-break round loop and the all-rounds loop
compute the same state. -/
theorem run_rounds_eq_no_break (fg : FOSort) (formulas : List Formula) :
    ∀ (k : Nat) (st : NaturalProof.TIState), ti_invariant fg st →
      NaturalProof.run_rounds fg formulas k st =
        NaturalProof.run_rounds_no_break fg formulas k st := by
  intro k
  induction k with
  | zero => intro st _; rfl
  | succ n ih =>
      intro st hinv
      rw [NaturalProof.run_rounds, NaturalProof.run_rounds_no_break]
      have hinv2 : ti_invariant fg { st with has_new_formula := false } := hinv
      by_cases h : (NaturalProof.process_round fg formulas
          { st with has_new_formula := false }).has_new_formula
      · rw [if_pos h]
        exact ih _ (round_inv fg formulas _ hinv2)
      · rw [if_neg h]
        have hb : ({ st with has_new_formula := false } :
            NaturalProof.TIState).has_new_formula = false := rfl
        have hround : NaturalProof.process_round fg formulas
            { st with has_new_formula := false } =
            { st with has_new_formula := false } :=
          round_id fg formulas _ hinv2 hb (by simpa using h)
        rw [hround]
        symm
        exact run_rounds_no_break_fix fg formulas n _ hround hb

/-- C7: the early fixpoint break of `term_instantiate` is a pure performance
shortcut — the variant that unconditionally runs all `depth` rounds returns
exactly the same result; and once a round produces no new formula, every later
round on the same inputs changes nothing (so it emits nothing). -/
theorem C7_fixpoint_stability (L : Language) (fg : FOSort)
    (formulas : List Formula) (d : Int) :
    NaturalProof.term_instantiate L fg formulas d =
      NaturalProof.term_instantiate_no_break L fg formulas d ∧
    ∀ (st : NaturalProof.TIState) (k : Nat), ti_invariant fg st →
      (NaturalProof.process_round fg formulas
          { st with has_new_formula := false }).has_new_formula = false →
      NaturalProof.run_rounds_no_break fg formulas k
          (NaturalProof.process_round fg formulas
            { st with has_new_formula := false }) =
        NaturalProof.process_round fg formulas
          { st with has_new_formula := false } := by
  constructor
  · unfold NaturalProof.term_instantiate NaturalProof.term_instantiate_no_break
    by_cases h1 : fg.smt_hook ≠ none
    · rw [if_pos h1, if_pos h1]
    · rw [if_neg h1, if_neg h1]
      by_cases h2 : NaturalProof.seed_ground_terms L fg formulas = []
      · rw [if_pos h2, if_pos h2]
      · rw [if_neg h2, if_neg h2]
        by_cases h3 : d < 0
        · rw [if_pos h3, if_pos h3]
        · rw [if_neg h3, if_neg h3]
          have heq := run_rounds_eq_no_break fg formulas d.toNat
            (NaturalProof.initial_state L fg formulas)
            (by
              intro G hG t ht
              simp [NaturalProof.initial_state] at hG)
          rw [heq]
  · intro st k hinv hfalse
    have hb : ({ st with has_new_formula := false } :
        NaturalProof.TIState).has_new_formula = false := rfl
    have hinv2 : ti_invariant fg { st with has_new_formula := false } := hinv
    have hround : NaturalProof.process_round fg formulas
        { st with has_new_formula := false } =
        { st with has_new_formula := false } :=
      round_id fg formulas _ hinv2 hb hfalse
    rw [hround]
    exact run_rounds_no_break_fix fg formulas k _ hround hb

/-- The concrete state of the C7 witness: one seed term, with the single input
formula already instantiated and emitted. -/
def C7State : NaturalProof.TIState :=
  ⟨[Term.app NilSymbol []], [Formula.Verum], [Formula.Verum], false⟩

/-- C7 witness: the stability conjunct applied at a concrete state whose next
round is a fixpoint round, with both hypotheses discharged concretely. -/
theorem C7_witness :
    ti_invariant PointerSort C7State ∧
    (NaturalProof.process_round PointerSort [Formula.Verum]
        { C7State with has_new_formula := false }).has_new_formula = false ∧
    NaturalProof.run_rounds_no_break PointerSort [Formula.Verum] 5
        (NaturalProof.process_round PointerSort [Formula.Verum]
          { C7State with has_new_formula := false }) =
      NaturalProof.process_round PointerSort [Formula.Verum]
        { C7State with has_new_formula := false } :=
  ⟨by decide, by decide,
    (C7_fixpoint_stability PointerLanguage PointerSort [Formula.Verum] 0).2 C7State 5
      (by decide) (by decide)⟩

deriving instance DecidableEq for Except

/-- A formula without foreground-sort free variables has an empty sorted
foreground free-variable list. -/
theorem ffv_nil (fg : FOSort) (F : Formula)
    (h : ∀ v ∈ F.get_free_variables, v.sort ≠ fg) :
    NaturalProof.foreground_free_vars fg F = [] := by
  unfold NaturalProof.foreground_free_vars
  have hf : F.get_free_variables.filter (fun v => decide (v.sort = fg)) = [] := by
    rw [List.filter_eq_nil_iff]
    intro v hv
    simp [h v hv]
  rw [hf]
  rfl

/-- Processing a formula with no foreground free variables is a single
assignment step with the empty assignment. -/
theorem pf_no_vars (fg : FOSort) (st : NaturalProof.TIState) (F : Formula)
    (h : NaturalProof.foreground_free_vars fg F = []) :
    NaturalProof.process_formula fg st F =
      NaturalProof.process_assignment fg F [] st [] := by
  simp only [NaturalProof.process_formula, h]
  rfl

/-- Once a formula with no foreground free variables has been instantiated,
any further rounds on the singleton list emit nothing more. -/
theorem run_rounds_after_member (fg : FOSort) (F : Formula)
    (hffv : NaturalProof.foreground_free_vars fg F = []) :
    ∀ (k : Nat) (st : NaturalProof.TIState), F ∈ st.instantiated_formulas →
      (NaturalProof.run_rounds fg [F] k st).emitted = st.emitted := by
  intro k
  cases k with
  | zero => intro st _; rfl
  | succ n =>
      intro st hmem
      rw [NaturalProof.run_rounds]
      have hr : NaturalProof.process_round fg [F] { st with has_new_formula := false } =
          NaturalProof.process_assignment fg F [] { st with has_new_formula := false } [] := by
        show List.foldl (NaturalProof.process_formula fg) _ [F] = _
        rw [List.foldl_cons, List.foldl_nil, pf_no_vars fg _ F hffv]
      rw [hr]
      rcases pa_cases fg F [] { st with has_new_formula := false } [] with
        ⟨hm, heq⟩ | ⟨hnm, heq⟩
      · rw [heq, if_neg (fun hcc => by cases hcc)]
      · exfalso
        apply hnm
        rw [show F.substitute (([] : List Variable).zip ([] : List Term)) = F from
          Formula.substitute_empty F]
        exact hmem

/-- C5 (amended): for a quantifier-free formula without foreground-sort free
variables, an uninterpreted foreground sort and a non-empty seed set,
`term_instantiate` on the singleton list emits exactly the formula itself, for
every depth at least 1 (at depth 0 nothing is emitted). -/
theorem C5_single_formula_no_foreground_vars (L : Language) (fg : FOSort)
    (F : Formula) (d : Int)
    (hq : F.is_qfree = true)
    (hhook : fg.smt_hook = none)
    (hseed : NaturalProof.seed_ground_terms L fg [F] ≠ [])
    (hfv : ∀ v ∈ F.get_free_variables, v.sort ≠ fg)
    (hd : 1 ≤ d) :
    NaturalProof.term_instantiate L fg [F] d = .ok [F] := by
  rw [term_instantiate_ok L fg [F] d hhook hseed (by omega)]
  have hffv := ffv_nil fg F hfv
  obtain ⟨k, hk⟩ : ∃ k, d.toNat = k + 1 := ⟨d.toNat - 1, by omega⟩
  rw [hk, NaturalProof.run_rounds]
  have hr : NaturalProof.process_round fg [F]
      { NaturalProof.initial_state L fg [F] with has_new_formula := false } =
      NaturalProof.process_assignment fg F []
        { NaturalProof.initial_state L fg [F] with has_new_formula := false } [] := by
    show List.foldl (NaturalProof.process_formula fg) _ [F] = _
    rw [List.foldl_cons, List.foldl_nil, pf_no_vars fg _ F hffv]
  rw [hr]
  rcases pa_cases fg F []
      { NaturalProof.initial_state L fg [F] with has_new_formula := false } [] with
    ⟨hm, heq⟩ | ⟨hnm, heq⟩
  · exfalso
    rw [show F.substitute (([] : List Variable).zip ([] : List Term)) = F from
      Formula.substitute_empty F] at hm
    simp [NaturalProof.initial_state] at hm
  · rw [heq, if_pos rfl]
    rw [run_rounds_after_member fg F hffv k _ (by
      rw [show F.substitute (([] : List Variable).zip ([] : List Term)) = F from
        Formula.substitute_empty F]
      simp)]
    simp [NaturalProof.initial_state, Formula.substitute_empty]

/-- C5 counterexample: at depth 0 the round loop never runs and nothing is
emitted, refuting the claim's "for every requested depth"; every premise of
the claim holds at this input. -/
theorem C5_counterexample :
    PointerSort.smt_hook = none ∧
    NaturalProof.seed_ground_terms PointerLanguage PointerSort [Formula.Verum] ≠ [] ∧
    Formula.Verum.is_qfree = true ∧
    (∀ v ∈ Formula.Verum.get_free_variables, v.sort ≠ PointerSort) ∧
    NaturalProof.term_instantiate PointerLanguage PointerSort [Formula.Verum] 0 =
      .ok [] ∧
    Except.ok ([] : List Formula) ≠
      (.ok [Formula.Verum] : Except String (List Formula)) :=
  ⟨rfl, by decide, rfl, by decide, by decide, by decide⟩

/-- C5 witness: the amended theorem applied at a concrete input of depth 1,
every hypothesis discharged concretely. -/
theorem C5_witness :
    Formula.Verum.is_qfree = true ∧
    PointerSort.smt_hook = none ∧
    NaturalProof.seed_ground_terms PointerLanguage PointerSort [Formula.Verum] ≠ [] ∧
    (∀ v ∈ Formula.Verum.get_free_variables, v.sort ≠ PointerSort) ∧
    (1 : Int) ≤ 1 ∧
    NaturalProof.term_instantiate PointerLanguage PointerSort [Formula.Verum] 1 =
      .ok [Formula.Verum] :=
  ⟨rfl, rfl, by decide, by decide, by decide,
    C5_single_formula_no_foreground_vars PointerLanguage PointerSort Formula.Verum 1
      rfl rfl (by decide) (by decide) (by decide)⟩

/-- A successful substitution lookup names a binding of the substitution. -/
theorem lookup_mem (s : Substitution) (w : Variable) (u : Term)
    (h : Substitution.lookup s w = some u) :
    ∃ p ∈ s, p.1 = w ∧ p.2 = u := by
  unfold Substitution.lookup at h
  cases hf : List.find? (fun p => p.1 = w) s with
  | none => rw [hf] at h; cases h
  | some p =>
      rw [hf] at h
      have hp1 := List.find?_some hf
      have hp2 := List.mem_of_find?_eq_some hf
      exact ⟨p, hp2, by simpa using hp1, by simpa using h⟩

mutual

/-- Free variables of a substituted term: either an unsubstituted free
variable of the original, or a free variable of a term in the substitution's
range. -/
theorem subst_fv_term (s : Substitution) :
    ∀ (t : Term) (v : Variable), v ∈ (Term.substitute s t).get_free_variables →
      (v ∈ t.get_free_variables ∧ Substitution.lookup s v = none) ∨
        ∃ p ∈ s, v ∈ p.2.get_free_variables
  | .var w, v, hv => by
      rw [Term.substitute] at hv
      cases hl : Substitution.lookup s w with
      | none =>
          rw [hl] at hv
          have hvw : v = w := by simpa [Term.get_free_variables] using hv
          subst hvw
          exact Or.inl ⟨by simp [Term.get_free_variables], hl⟩
      | some u =>
          rw [hl] at hv
          obtain ⟨p, hp, hp1, hp2⟩ := lookup_mem s w u hl
          exact Or.inr ⟨p, hp, by rw [hp2]; simpa using hv⟩
  | .app f args, v, hv => by
      rw [Term.substitute] at hv
      exact subst_fv_list s args v (by simpa [Term.get_free_variables] using hv)

/-- Free variables of a substituted term list. -/
theorem subst_fv_list (s : Substitution) :
    ∀ (ts : List Term) (v : Variable),
      v ∈ Term.get_free_variables_list (Term.substituteList s ts) →
      (v ∈ Term.get_free_variables_list ts ∧ Substitution.lookup s v = none) ∨
        ∃ p ∈ s, v ∈ p.2.get_free_variables
  | [], v, hv => by cases hv
  | t :: ts, v, hv => by
      rw [Term.substituteList] at hv
      rcases List.mem_append.1 (by simpa [Term.get_free_variables_list] using hv) with h | h
      · rcases subst_fv_term s t v h with ⟨h1, h2⟩ | h3
        · exact Or.inl ⟨List.mem_append.2 (Or.inl h1), h2⟩
        · exact Or.inr h3
      · rcases subst_fv_list s ts v h with ⟨h1, h2⟩ | h3
        · exact Or.inl ⟨List.mem_append.2 (Or.inr h1), h2⟩
        · exact Or.inr h3

end

/-- Free variables of a substituted quantifier-free formula: either an
unsubstituted free variable of the original, or a free variable of a term in
the substitution's range. -/
theorem subst_fv_formula (s : Substitution) (F : Formula) :
    F.is_qfree = true → ∀ v ∈ (F.substitute s).get_free_variables,
      (v ∈ F.get_free_variables ∧ Substitution.lookup s v = none) ∨
        ∃ p ∈ s, v ∈ p.2.get_free_variables := by
  induction F with
  | Falsum => intro _ v hv; cases hv
  | Verum => intro _ v hv; cases hv
  | RelationApplication r args =>
      intro _ v hv
      exact subst_fv_list s args v
        (by simpa [Formula.substitute, Formula.get_free_variables] using hv)
  | Equality l r =>
      intro _ v hv
      rcases List.mem_append.1
          (by simpa [Formula.substitute, Formula.get_free_variables] using hv) with h | h
      · rcases subst_fv_term s l v h with ⟨h1, h2⟩ | h3
        · exact Or.inl ⟨List.mem_append.2 (Or.inl h1), h2⟩
        · exact Or.inr h3
      · rcases subst_fv_term s r v h with ⟨h1, h2⟩ | h3
        · exact Or.inl ⟨List.mem_append.2 (Or.inr h1), h2⟩
        · exact Or.inr h3
  | Conjunction l r ihl ihr =>
      intro hq v hv
      simp only [Formula.is_qfree, Bool.and_eq_true] at hq
      rcases List.mem_append.1
          (by simpa [Formula.substitute, Formula.get_free_variables] using hv) with h | h
      · rcases ihl hq.1 v h with ⟨h1, h2⟩ | h3
        · exact Or.inl ⟨List.mem_append.2 (Or.inl h1), h2⟩
        · exact Or.inr h3
      · rcases ihr hq.2 v h with ⟨h1, h2⟩ | h3
        · exact Or.inl ⟨List.mem_append.2 (Or.inr h1), h2⟩
        · exact Or.inr h3
  | Disjunction l r ihl ihr =>
      intro hq v hv
      simp only [Formula.is_qfree, Bool.and_eq_true] at hq
      rcases List.mem_append.1
          (by simpa [Formula.substitute, Formula.get_free_variables] using hv) with h | h
      · rcases ihl hq.1 v h with ⟨h1, h2⟩ | h3
        · exact Or.inl ⟨List.mem_append.2 (Or.inl h1), h2⟩
        · exact Or.inr h3
      · rcases ihr hq.2 v h with ⟨h1, h2⟩ | h3
        · exact Or.inl ⟨List.mem_append.2 (Or.inr h1), h2⟩
        · exact Or.inr h3
  | Negation f ih =>
      intro hq v hv
      simp only [Formula.is_qfree] at hq
      rcases ih hq v (by simpa [Formula.substitute, Formula.get_free_variables] using hv) with
        ⟨h1, h2⟩ | h3
      · exact Or.inl ⟨h1, h2⟩
      · exact Or.inr h3
  | Implication l r ihl ihr =>
      intro hq v hv
      simp only [Formula.is_qfree, Bool.and_eq_true] at hq
      rcases List.mem_append.1
          (by simpa [Formula.substitute, Formula.get_free_variables] using hv) with h | h
      · rcases ihl hq.1 v h with ⟨h1, h2⟩ | h3
        · exact Or.inl ⟨List.mem_append.2 (Or.inl h1), h2⟩
        · exact Or.inr h3
      · rcases ihr hq.2 v h with ⟨h1, h2⟩ | h3
        · exact Or.inl ⟨List.mem_append.2 (Or.inr h1), h2⟩
        · exact Or.inr h3
  | Equivalence l r ihl ihr =>
      intro hq v hv
      simp only [Formula.is_qfree, Bool.and_eq_true] at hq
      rcases List.mem_append.1
          (by simpa [Formula.substitute, Formula.get_free_variables] using hv) with h | h
      · rcases ihl hq.1 v h with ⟨h1, h2⟩ | h3
        · exact Or.inl ⟨List.mem_append.2 (Or.inl h1), h2⟩
        · exact Or.inr h3
      · rcases ihr hq.2 v h with ⟨h1, h2⟩ | h3
        · exact Or.inl ⟨List.mem_append.2 (Or.inr h1), h2⟩
        · exact Or.inr h3
  | UniversalQuantification v0 body ih =>
      intro hq
      simp [Formula.is_qfree] at hq
  | ExistentialQuantification v0 body ih =>
      intro hq
      simp [Formula.is_qfree] at hq

mutual

/-- Every term collected by `get_all_ground_terms_in_term` is ground. -/
theorem gatg_ground_term (sort : FOSort) :
    ∀ (t t2 : Term), t2 ∈ NaturalProof.get_all_ground_terms_in_term sort t →
      t2.get_free_variables.length = 0
  | .var _, t2, h => by cases h
  | .app f args, t2, h => by
      simp only [NaturalProof.get_all_ground_terms_in_term] at h
      by_cases hc : (Term.app f args).get_sort = sort ∧
          (Term.app f args).get_free_variables.length = 0
      · rw [if_pos hc] at h
        rcases List.mem_cons.1 h with h | h
        · subst h; exact hc.2
        · exact gatg_ground_list sort args t2 h
      · rw [if_neg hc] at h
        exact gatg_ground_list sort args t2 h

/-- Every term collected over a term list is ground. -/
theorem gatg_ground_list (sort : FOSort) :
    ∀ (ts : List Term) (t2 : Term),
      t2 ∈ NaturalProof.get_all_ground_terms_in_term_list sort ts →
      t2.get_free_variables.length = 0
  | [], t2, h => by cases h
  | t :: ts, t2, h => by
      rw [NaturalProof.get_all_ground_terms_in_term_list] at h
      rcases List.mem_append.1 h with h | h
      · exact gatg_ground_term sort t t2 h
      · exact gatg_ground_list sort ts t2 h

end

/-- Every term collected by `get_all_ground_terms` is ground. -/
theorem gatg_ground (fg : FOSort) (G : Formula) :
    ∀ t ∈ NaturalProof.get_all_ground_terms fg G, t.get_free_variables.length = 0 :=
  fun t ht => gatg_ground_list fg _ t ht

/-- Every tuple of `tuple_product l n` has length `n`. -/
theorem tuple_product_length {α : Type} (l : List α) :
    ∀ (n : Nat) (a : List α), a ∈ NaturalProof.tuple_product l n → a.length = n := by
  intro n
  induction n with
  | zero =>
      intro a h
      have : a = [] := by simpa [NaturalProof.tuple_product] using h
      simp [this]
  | succ m ih =>
      intro a h
      simp only [NaturalProof.tuple_product] at h
      obtain ⟨x, hx, hmap⟩ := List.mem_flatMap.1 h
      obtain ⟨rest, hrest, hre⟩ := List.mem_map.1 hmap
      subst hre
      simp [ih rest hrest]

/-- Every entry of every tuple of `tuple_product l n` is drawn from `l`. -/
theorem tuple_product_mem {α : Type} (l : List α) :
    ∀ (n : Nat) (a : List α), a ∈ NaturalProof.tuple_product l n → ∀ x ∈ a, x ∈ l := by
  intro n
  induction n with
  | zero =>
      intro a h x hx
      have : a = [] := by simpa [NaturalProof.tuple_product] using h
      subst this
      cases hx
  | succ m ih =>
      intro a h x hx
      simp only [NaturalProof.tuple_product] at h
      obtain ⟨y, hy, hmap⟩ := List.mem_flatMap.1 h
      obtain ⟨rest, hrest, hre⟩ := List.mem_map.1 hmap
      subst hre
      rcases List.mem_cons.1 hx with h | h
      · subst h; exact hy
      · exact ih rest hrest x h

/-- Looking up a zipped variable that occurs in the key list always
succeeds when the lists have equal length. -/
theorem zip_lookup_ne_none :
    ∀ (l1 : List Variable) (l2 : List Term) (v : Variable),
      v ∈ l1 → l1.length = l2.length →
      Substitution.lookup (l1.zip l2) v ≠ none := by
  intro l1
  induction l1 with
  | nil => intro l2 v hv; cases hv
  | cons w ws ih =>
      intro l2 v hv hlen
      cases l2 with
      | nil => simp at hlen
      | cons u us =>
          rcases List.mem_cons.1 hv with hvw | hvw
          · subst hvw
            intro hcon
            unfold Substitution.lookup at hcon
            rw [List.zip_cons_cons, List.find?_cons_of_pos _ (by simp)] at hcon
            simp at hcon
          · intro hcon
            apply ih us v hvw (by simpa using hlen)
            unfold Substitution.lookup at hcon ⊢
            rw [List.zip_cons_cons] at hcon
            by_cases hw : w = v
            · rw [List.find?_cons_of_pos _ (by simp [hw])] at hcon
              simp at hcon
            · rw [List.find?_cons_of_neg _ (by simp [hw])] at hcon
              exact hcon

/-- Membership through the sorted insertion of a variable. -/
theorem mem_insert_variable_sorted (v x : Variable) :
    ∀ l : List Variable,
      (x ∈ NaturalProof.insert_variable_sorted v l ↔ x = v ∨ x ∈ l) := by
  intro l
  induction l with
  | nil => simp [NaturalProof.insert_variable_sorted]
  | cons w ws ih =>
      rw [NaturalProof.insert_variable_sorted]
      by_cases h : v.name ≤ w.name
      · simp [h]
      · simp only [if_neg h, List.mem_cons, ih]
        tauto

/-- Sorting preserves membership. -/
theorem mem_sort_variables (x : Variable) :
    ∀ l : List Variable, (x ∈ NaturalProof.sort_variables l ↔ x ∈ l) := by
  intro l
  induction l with
  | nil => simp [NaturalProof.sort_variables]
  | cons v vs ih =>
      rw [NaturalProof.sort_variables, mem_insert_variable_sorted]
      simp [ih]

/-- Decomposition of membership in an `insertNew` fold. -/
theorem mem_foldl_insertNew {α : Type} [DecidableEq α] :
    ∀ (l g : List α) (x : α), x ∈ l.foldl insertNew g → x ∈ g ∨ x ∈ l := by
  intro l
  induction l with
  | nil => intro g x h; exact Or.inl h
  | cons a rest ih =>
      intro g x h
      rw [List.foldl_cons] at h
      rcases ih _ x h with h | h
      · unfold insertNew at h
        by_cases ha : a ∈ g
        · rw [if_pos ha] at h; exact Or.inl h
        · rw [if_neg ha] at h
          rcases List.mem_append.1 h with h | h
          · exact Or.inl h
          · simp at h; subst h; exact Or.inr (List.mem_cons_self _ _)
      · exact Or.inr (List.mem_cons_of_mem _ h)

/-- Substituting ground terms for all sorted foreground free variables of a
quantifier-free formula leaves no foreground-sort free variable. -/
theorem subst_no_fg (fg : FOSort) (F : Formula) (hq : F.is_qfree = true)
    (a : List Term)
    (hlen : a.length = (NaturalProof.foreground_free_vars fg F).length)
    (hground : ∀ x ∈ a, x.get_free_variables.length = 0) :
    ∀ v ∈ (F.substitute
        ((NaturalProof.foreground_free_vars fg F).zip a)).get_free_variables,
      v.sort ≠ fg := by
  intro v hv hsort
  rcases subst_fv_formula _ F hq v hv with ⟨h1, h2⟩ | ⟨p, hp, hpv⟩
  · apply zip_lookup_ne_none (NaturalProof.foreground_free_vars fg F) a v ?_ (by omega) h2
    unfold NaturalProof.foreground_free_vars
    rw [mem_sort_variables, List.mem_dedup, List.mem_filter]
    exact ⟨h1, by simp [hsort]⟩
  · have hpa : p.2 ∈ a := (List.of_mem_zip hp).2
    have hg0 := hground p.2 hpa
    have hnil : p.2.get_free_variables = [] := List.length_eq_zero.1 hg0
    rw [hnil] at hpv
    cases hpv

/-- The invariant of the C10 claim: all recorded ground terms are ground, and
no emitted formula has a foreground-sort free variable. -/
def c10_invariant (fg : FOSort) (st : NaturalProof.TIState) : Prop :=
  (∀ t ∈ st.ground_terms, t.get_free_variables.length = 0) ∧
  (∀ G ∈ st.emitted, ∀ v ∈ G.get_free_variables, v.sort ≠ fg)

/-- One assignment step preserves the C10 invariant when the assignment is
ground and complete. -/
theorem pa_c10 (fg : FOSort) (F : Formula) (st : NaturalProof.TIState) (a : List Term)
    (hq : F.is_qfree = true)
    (hinv : c10_invariant fg st)
    (hlen : a.length = (NaturalProof.foreground_free_vars fg F).length)
    (hground : ∀ x ∈ a, x.get_free_variables.length = 0) :
    c10_invariant fg (NaturalProof.process_assignment fg F
      (NaturalProof.foreground_free_vars fg F) st a) := by
  rcases pa_cases fg F (NaturalProof.foreground_free_vars fg F) st a with
    ⟨hm, heq⟩ | ⟨hnm, heq⟩ <;> rw [heq] <;> constructor
  · intro t ht
    rcases mem_foldl_insertNew _ _ _ ht with h | h
    · exact hinv.1 t h
    · exact gatg_ground fg _ t h
  · intro G hG
    exact hinv.2 G hG
  · intro t ht
    rcases mem_foldl_insertNew _ _ _ ht with h | h
    · exact hinv.1 t h
    · exact gatg_ground fg _ t h
  · intro G hG
    rcases List.mem_append.1 hG with h | h
    · exact hinv.2 G h
    · have hGe : G = F.substitute ((NaturalProof.foreground_free_vars fg F).zip a) := by
        simpa using h
      subst hGe
      exact subst_no_fg fg F hq a hlen hground

/-- Processing one quantifier-free formula preserves the C10 invariant. -/
theorem pf_c10 (fg : FOSort) (st : NaturalProof.TIState) (F : Formula)
    (hq : F.is_qfree = true) (hinv : c10_invariant fg st) :
    c10_invariant fg (NaturalProof.process_formula fg st F) := by
  have hmain : ∀ (as : List (List Term)),
      (∀ a ∈ as, a.length = (NaturalProof.foreground_free_vars fg F).length ∧
        ∀ x ∈ a, x.get_free_variables.length = 0) →
      ∀ st' : NaturalProof.TIState, c10_invariant fg st' →
      c10_invariant fg (as.foldl (NaturalProof.process_assignment fg F
        (NaturalProof.foreground_free_vars fg F)) st') := by
    intro as
    induction as with
    | nil => intro _ st' h; exact h
    | cons a rest ih =>
        intro has st' h
        rw [List.foldl_cons]
        exact ih (fun a2 ha2 => has a2 (List.mem_cons_of_mem a ha2)) _
          (pa_c10 fg F st' a hq h (has a (List.mem_cons_self a rest)).1
            (has a (List.mem_cons_self a rest)).2)
  exact hmain _
    (fun a ha => ⟨tuple_product_length _ _ a ha,
      fun x hx => hinv.1 x (tuple_product_mem _ _ a ha x hx)⟩)
    st hinv

/-- One round over quantifier-free formulas preserves the C10 invariant. -/
theorem round_c10 (fg : FOSort) (formulas : List Formula)
    (hq : ∀ F ∈ formulas, F.is_qfree = true) :
    ∀ st : NaturalProof.TIState, c10_invariant fg st →
      c10_invariant fg (NaturalProof.process_round fg formulas st) := by
  unfold NaturalProof.process_round
  induction formulas with
  | nil => intro st h; exact h
  | cons F rest ih =>
      intro st h
      rw [List.foldl_cons]
      exact ih (fun F2 hF2 => hq F2 (List.mem_cons_of_mem F hF2)) _
        (pf_c10 fg st F (hq F (List.mem_cons_self F rest)) h)

/-- Any number of rounds over quantifier-free formulas preserves the C10
invariant. -/
theorem run_c10 (fg : FOSort) (formulas : List Formula)
    (hq : ∀ F ∈ formulas, F.is_qfree = true) :
    ∀ (k : Nat) (st : NaturalProof.TIState), c10_invariant fg st →
      c10_invariant fg (NaturalProof.run_rounds fg formulas k st) := by
  intro k
  induction k with
  | zero => intro st h; exact h
  | succ n ih =>
      intro st h
      rw [NaturalProof.run_rounds]
      have h2 : c10_invariant fg ({ st with has_new_formula := false } :
          NaturalProof.TIState) := h
      by_cases hb : (NaturalProof.process_round fg formulas
          { st with has_new_formula := false }).has_new_formula
      · rw [if_pos hb]
        exact ih _ (round_c10 fg formulas hq _ h2)
      · rw [if_neg hb]
        exact round_c10 fg formulas hq _ h2

/-- Every seed term found in the language is a nullary application. -/
theorem seed_from_language_shape (L : Language) (fg : FOSort) :
    ∀ t ∈ NaturalProof.seed_from_language L fg, ∃ f, t = Term.app f [] := by
  have hmain : ∀ (fs : List FunctionSymbol) (acc : List Term),
      (∀ t ∈ acc, ∃ f, t = Term.app f []) →
      ∀ t ∈ fs.foldl (fun acc f =>
          if f.output_sort = fg ∧ f.input_sorts = [] then
            insertNew acc (Term.app f []) else acc) acc,
        ∃ f, t = Term.app f [] := by
    intro fs
    induction fs with
    | nil => intro acc hacc t ht; exact hacc t ht
    | cons f rest ih =>
        intro acc hacc t ht
        rw [List.foldl_cons] at ht
        by_cases hc : f.output_sort = fg ∧ f.input_sorts = []
        · rw [if_pos hc] at ht
          refine ih _ ?_ t ht
          intro t2 ht2
          unfold insertNew at ht2
          by_cases hmem : Term.app f [] ∈ acc
          · rw [if_pos hmem] at ht2; exact hacc t2 ht2
          · rw [if_neg hmem] at ht2
            rcases List.mem_append.1 ht2 with h | h
            · exact hacc t2 h
            · simp at h; subst h; exact ⟨f, rfl⟩
        · rw [if_neg hc] at ht
          exact ih _ hacc t ht
  intro t ht
  exact hmain L.function_symbols [] (by intro t2 ht2; cases ht2) t ht

/-- Every seed term harvested from the input formulas is ground. -/
theorem seed_formulas_ground (fg : FOSort) :
    ∀ (fs : List Formula) (acc : List Term),
      (∀ t ∈ acc, t.get_free_variables.length = 0) →
      ∀ t ∈ fs.foldl (fun acc formula =>
          (NaturalProof.get_all_ground_terms fg formula).foldl insertNew acc) acc,
        t.get_free_variables.length = 0 := by
  intro fs
  induction fs with
  | nil => intro acc hacc t ht; exact hacc t ht
  | cons F rest ih =>
      intro acc hacc t ht
      rw [List.foldl_cons] at ht
      refine ih _ ?_ t ht
      intro t2 ht2
      rcases mem_foldl_insertNew _ _ _ ht2 with h | h
      · exact hacc t2 h
      · exact gatg_ground fg F t2 h

/-- The initial state of `term_instantiate` satisfies the C10 invariant. -/
theorem initial_c10 (L : Language) (fg : FOSort) (formulas : List Formula) :
    c10_invariant fg (NaturalProof.initial_state L fg formulas) := by
  constructor
  · intro t ht
    have ht2 : t ∈ NaturalProof.seed_ground_terms L fg formulas := ht
    simp only [NaturalProof.seed_ground_terms] at ht2
    by_cases hg : NaturalProof.seed_from_language L fg = []
    · rw [if_pos hg] at ht2
      exact seed_formulas_ground fg formulas [] (by intro t2 ht3; cases ht3) t ht2
    · rw [if_neg hg] at ht2
      obtain ⟨f, rfl⟩ := seed_from_language_shape L fg t ht2
      rfl
  · intro G hG
    cases hG

/-- A second uninterpreted sort, distinct from the pointer sort. -/
def QSort : FOSort := ⟨"Q", none⟩

/-- A two-sorted language with one nullary function of the pointer sort. -/
def PointerQLanguage : Language := ⟨[PointerSort, QSort], [NilSymbol], []⟩

/-- A quantifier-free formula whose only free variable has the non-foreground
sort `QSort`. -/
def C10Formula : Formula :=
  .Equality (.var ⟨"y", QSort⟩) (.var ⟨"y", QSort⟩)

/-- C10: every formula emitted by `term_instantiate` on quantifier-free inputs
has no free variable of the foreground sort; emitted formulas may still have
free variables of other sorts, as the concrete run in the second conjunct
shows (its emitted formula keeps the free variable of sort `QSort`). -/
theorem C10_emitted_foreground_closed :
    (∀ (L : Language) (fg : FOSort) (formulas : List Formula) (d : Int)
        (l : List Formula),
      (∀ F ∈ formulas, F.is_qfree = true) →
      NaturalProof.term_instantiate L fg formulas d = .ok l →
      ∀ G ∈ l, ∀ v ∈ G.get_free_variables, v.sort ≠ fg) ∧
    (NaturalProof.term_instantiate PointerQLanguage PointerSort [C10Formula] 1 =
        .ok [C10Formula] ∧
      (⟨"y", QSort⟩ : Variable) ∈ C10Formula.get_free_variables ∧
      (⟨"y", QSort⟩ : Variable).sort ≠ PointerSort) := by
  constructor
  · intro L fg formulas d l hq hok G hG v hv
    unfold NaturalProof.term_instantiate at hok
    by_cases h1 : fg.smt_hook ≠ none
    · rw [if_pos h1] at hok; cases hok
    · rw [if_neg h1] at hok
      by_cases h2 : NaturalProof.seed_ground_terms L fg formulas = []
      · rw [if_pos h2] at hok; cases hok
      · rw [if_neg h2] at hok
        by_cases h3 : d < 0
        · rw [if_pos h3] at hok; cases hok
        · rw [if_neg h3] at hok
          have hl : l = (NaturalProof.run_rounds fg formulas d.toNat
              (NaturalProof.initial_state L fg formulas)).emitted := by
            injection hok with h
            exact h.symm
          subst hl
          exact (run_c10 fg formulas hq d.toNat _ (initial_c10 L fg formulas)).2
            G hG v hv
  · exact ⟨by decide, by decide, by decide⟩

/-- C10 witness: the universal conjunct applied at a concrete run, all
hypotheses discharged concretely. -/
theorem C10_witness :
    (∀ F ∈ [C10Formula], F.is_qfree = true) ∧
    NaturalProof.term_instantiate PointerQLanguage PointerSort [C10Formula] 1 =
      .ok [C10Formula] ∧
    (∀ v ∈ C10Formula.get_free_variables, v.sort ≠ PointerSort) :=
  ⟨by decide, by decide,
    fun v hv =>
      C10_emitted_foreground_closed.1 PointerQLanguage PointerSort [C10Formula] 1
        [C10Formula] (by decide) (by decide) C10Formula (by decide) v hv⟩

end FolSynthesis
